import Mathlib

/-! # tmux-sessionizer: a shallow embedding of `main.go`

The program picks a directory with `fzf` and opens a tmux session for it.
This development embeds the pure parts of `main.go` (session naming, path
resolution), the directory walk of `findRepos` over an explicit directory
tree, the feeder of `selectProject` as a transition system, and the
orchestration in `main` as a function from the observable environment to the
list of subprocesses that are started.

A Go string is a sequence of bytes; it is modelled as a list of characters,
one character for each byte.  The functions below treat a string symbol by
symbol and compare symbols only with `/`, `.`, `~`, `\r` and `\n`.  The
operating system is Unix (`filepath.Separator = '/'`, no volume names).

The functions of the Go library that `main.go` calls (`filepath.Clean`,
`filepath.Join`, `filepath.Base`, `filepath.WalkDir`, `strings.Count`,
`strings.ReplaceAll`, `strings.TrimRight`) are embedded from the source of
the library.  The file system, the selector and tmux are inputs: a directory
tree with the results of the system calls, how the selector ended, and what
tmux answers.
-/

namespace TmuxSessionizer

/-- A Go `string`. -/
abbrev Str := List Char

/-! ## The library functions used by `main.go` -/

/-- `filepath.Separator` on Unix. -/
abbrev Separator : Char := '/'

/-- `strings.Count(s, string(c))` for a one-byte substring: the number of
occurrences of `c` in `s`. -/
def Count (s : Str) (c : Char) : Nat := s.count c

/-- `strings.ReplaceAll(s, string(old), string(new))` for one-byte `old` and
`new`: every occurrence of `old` becomes `new`. -/
def ReplaceAll (s : Str) (old new : Char) : Str :=
  s.map (fun c => if c = old then new else c)

/-- `strings.TrimRight(s, "\r\n")`: drop every trailing carriage return and
line feed. -/
def TrimRightCRLF (s : Str) : Str :=
  (s.reverse.dropWhile (fun c => c = Char.ofNat 13 || c = Char.ofNat 10)).reverse

/-- `strings.Split(s, "/")`: the elements of `s` between separators; never
empty (the empty string has the single element `""`). -/
def splitSep : Str → List Str
  | [] => [[]]
  | c :: cs =>
    if c = Separator then [] :: splitSep cs
    else match splitSep cs with
      | [] => [[c]]
      | x :: xs => (c :: x) :: xs

/-- `strings.Join(elems, "/")`. -/
def joinSep : List Str → Str
  | [] => []
  | [a] => a
  | a :: b :: rest => a ++ Separator :: joinSep (b :: rest)

/-- The name `..`. -/
abbrev dotdot : Str := ['.', '.']

/-- The backtracking loop of the `..` case of `filepath.Clean`, on the buffer
with its last byte first: `last` is the byte dropped last (`out.index(out.w)`),
and bytes are dropped while more than `dotdot` remain and the byte dropped
last is no separator. -/
def backtrackLoop (dotdot : Nat) : Char → Str → Str
  | _, [] => []
  | last, c :: rest =>
    if (c :: rest).length > dotdot ∧ last ≠ Separator then backtrackLoop dotdot c rest
    else c :: rest

/-- The backtracking of the `..` case of `filepath.Clean`: `out.w--`, then the
backtracking loop. -/
def backtrack (dotdot : Nat) : Str → Str
  | [] => []
  | last :: rest => backtrackLoop dotdot last rest

/-- The loop `for r < n` of `filepath.Clean`.  The first argument is the
input from index `r` on; the flag tells whether the inner loop that copies a
real path element is running; `out` is the buffer (`lazybuf`) with its last
byte first, so that `out.w` is its length; `dotdot` is the index where
backtracking must stop. -/
def cleanLoop (rooted : Bool) : Str → Bool → Str → Nat → Str
  | [], _, out, _ => out
  | c :: rest, true, out, dotdot =>
    if c = Separator then cleanLoop rooted rest false out dotdot
    else cleanLoop rooted rest true (c :: out) dotdot
  | c :: rest, false, out, dotdot =>
    if c = Separator then
      cleanLoop rooted rest false out dotdot
    else if c = '.' ∧ (rest = [] ∨ rest.head? = some Separator) then
      cleanLoop rooted rest false out dotdot
    else
      match rest with
      | c2 :: rest2 =>
        if c = '.' ∧ c2 = '.' ∧ (rest2 = [] ∨ rest2.head? = some Separator) then
          if out.length > dotdot then
            cleanLoop rooted rest2 false (backtrack dotdot out) dotdot
          else if !rooted then
            let out1 := if out.length > 0 then Separator :: out else out
            let out2 := '.' :: '.' :: out1
            cleanLoop rooted rest2 false out2 out2.length
          else
            cleanLoop rooted rest2 false out dotdot
        else
          let out1 := if (rooted && out.length != 1) || (!rooted && out.length != 0)
            then Separator :: out else out
          cleanLoop rooted (c2 :: rest2) true (c :: out1) dotdot
      | [] =>
        let out1 := if (rooted && out.length != 1) || (!rooted && out.length != 0)
          then Separator :: out else out
        cleanLoop rooted [] true (c :: out1) dotdot

/-- `filepath.Clean(path)` on Unix, byte by byte: the empty path gives `.`;
the buffer of a rooted path starts with the separator, and the loop starts
behind it; an empty buffer at the end gives `.`. -/
def Clean (path : Str) : Str :=
  if path = [] then ['.']
  else
    let rooted := decide (path.head? = some Separator)
    let out := if rooted then cleanLoop rooted path.tail false [Separator] 1
      else cleanLoop rooted path false [] 0
    if out.length = 0 then ['.'] else out.reverse

/-- `filepath.Join(elem...)` on Unix: leading empty elements are ignored, the
rest is joined with separators and cleaned; all elements empty gives `""`. -/
def Join (elem : List Str) : Str :=
  match elem.dropWhile (fun e => e = []) with
  | [] => []
  | es => Clean (joinSep es)

/-- `filepath.Base(path)` on Unix: `.` for the empty path; otherwise trailing
separators are stripped, the part after the last remaining separator is
taken, and an empty result (the path held only separators) is the
separator. -/
def Base (path : Str) : Str :=
  if path = [] then ['.']
  else
    let stripped := (path.reverse.dropWhile (fun c => c = Separator)).reverse
    let last := (stripped.reverse.takeWhile (fun c => c ≠ Separator)).reverse
    if last = [] then [Separator] else last

/-! ## Session naming (`main`, line 43) -/

/-- The session name computed in `main`:
`strings.ReplaceAll(filepath.Base(selected), ".", "-")`. -/
def sessionName (selected : Str) : Str := ReplaceAll (Base selected) '.' '-'

/-- The session key in the words of the specification: the final path segment
of the selected path, here the last non-empty element between separators (the
empty string when there is none), with every period replaced by a hyphen. -/
def finalSegment (path : Str) : Str :=
  ((splitSep path).filter (fun s => s ≠ [])).getLastD []

/-- The session key of the specification. -/
def specSessionKey (path : Str) : Str := ReplaceAll (finalSegment path) '.' '-'

/-! ## Path resolution (`resolveTildePath`, lines 183-196) -/

/-- The function `resolveTildePath`.  `userHomeDir` is what `os.UserHomeDir()`
returns (`none` for an error); the result `none` is the panic. -/
def resolveTildePath (userHomeDir : Option Str) (p : Str) : Option Str :=
  if ¬ (['~'].isPrefixOf p) then some p
  else match userHomeDir with
    | none => none
    | some homeDir =>
      let resolvedPath := Join [homeDir, p.drop 1]
      some (Clean resolvedPath)

/-- The value of `resolveTildePath p` in a process whose home directory is
`homeDir` (there is no panic then). -/
def resolveTildePathIn (homeDir : Str) (p : Str) : Str :=
  (resolveTildePath (some homeDir) p).getD p

/-! ## The directory walk (`findRepos`, lines 117-142) -/

/-- A file-system object as `filepath.WalkDir` and the callback of `findRepos`
observe it.  `other` is anything whose `DirEntry.IsDir()` is false (regular
file, symbolic link, device).  For a directory, `gitStat` is the result of
`os.Stat(filepath.Join(path, ".git"))` (`none` for an error, `some b` for
`fi.IsDir() = b`), `readErr` tells whether `os.ReadDir` reported an error, and
`entries` are the entries `os.ReadDir` returned, in its order (all of them, or
those read before the error). -/
inductive Node where
  | other : Node
  | dir (gitStat : Option Bool) (readErr : Bool) (entries : List (Str × Node)) : Node

/-- `DirEntry.IsDir()`. -/
def Node.isDir : Node → Bool
  | .other => false
  | .dir _ _ _ => true

/-- The errors a `fs.WalkDirFunc` can return besides `nil`. -/
inductive WalkErr where
  | skipDir : WalkErr
  | skipAll : WalkErr
  | other : WalkErr
deriving DecidableEq

/-- What a walk does that can be observed: a call of `os.Stat` on a path, and
a value sent on the channel `dirs`. -/
inductive Event where
  | stat (path : Str) : Event
  | send (path : Str) : Event
deriving DecidableEq

/-- A `fs.WalkDirFunc`: path, directory entry (`none` for `nil`), whether the
error argument is non-nil; it returns the events it caused and its error
(`none` for `nil`). -/
abbrev WalkDirFunc := Str → Option Node → Bool → List Event × Option WalkErr

mutual
/-- The function `walkDir` of `path/filepath`: call the function on the
entry; stop there on an error or for a non-directory (a skipped directory is
no error); report a `ReadDir` error with a second call; then walk the entries
that were read. -/
def walkDir (fn : WalkDirFunc) (path : Str) : Node → List Event × Option WalkErr
  | .other =>
    let r := fn path (some .other) false
    (r.1, r.2)
  | .dir g readErr entries =>
    let d := Node.dir g readErr entries
    let r := fn path (some d) false
    if r.2 ≠ none then
      (r.1, if r.2 = some .skipDir then none else r.2)
    else
      let r2 := if readErr then fn path (some d) true else ([], none)
      if r2.2 ≠ none then
        (r.1 ++ r2.1, if r2.2 = some .skipDir then none else r2.2)
      else
        let r3 := walkEntries fn path entries
        (r.1 ++ r2.1 ++ r3.1, r3.2)
/-- The loop of `walkDir` over the entries of a directory: a `SkipDir` from an
entry ends the loop without error, another error is returned. -/
def walkEntries (fn : WalkDirFunc) (path : Str) : List (Str × Node) → List Event × Option WalkErr
  | [] => ([], none)
  | (name, d1) :: rest =>
    let path1 := Join [path, name]
    let r := walkDir fn path1 d1
    if r.2 ≠ none then
      (r.1, if r.2 = some .skipDir then none else r.2)
    else
      let r2 := walkEntries fn path rest
      (r.1 ++ r2.1, r2.2)
end

/-- `filepath.WalkDir(root, fn)`.  `info` is the result of `os.Lstat(root)`
(`none` for an error) together with what lies below the root. -/
def WalkDir (fn : WalkDirFunc) (root : Str) (info : Option Node) : List Event × Option WalkErr :=
  let r := match info with
    | none => fn root none true
    | some d => walkDir fn root d
  (r.1, if r.2 = some .skipDir ∨ r.2 = some .skipAll then none else r.2)

/-- The name of the version-control marker, `.git`. -/
abbrev dotGit : Str := ['.', 'g', 'i', 't']

/-- The function literal that `findRepos` passes to `filepath.WalkDir`
(lines 119-138).  `filepath.WalkDir` passes no entry only together with an
error, so the case of no entry without error does not occur. -/
def findReposFn (rootDepth depth : Int) : WalkDirFunc := fun path d err =>
  if err then ([], none)
  else match d with
    | none => ([], none)
    | some .other => ([], none)
    | some (.dir gitStat _ _) =>
      let pathDepth : Int := (Count path Separator : Int) - rootDepth
      if pathDepth ≥ depth then ([], some .skipDir)
      else
        let st := Event.stat (Join [path, dotGit])
        match gitStat with
        | none => ([st], none)
        | some fiIsDir => if fiIsDir then ([st, Event.send path], none) else ([st], none)

/-- The function `findRepos`: the events of the walk, in order, and the error
returned (`none` for `nil`). -/
def findRepos (root : Str) (depth : Int) (info : Option Node) : List Event × Option WalkErr :=
  let rootDepth : Int := (Count root Separator : Int)
  WalkDir (findReposFn rootDepth depth) root info

/-- The values sent on the channel, in order. -/
def emitted (evs : List Event) : List Str :=
  evs.filterMap (fun e => match e with | .send p => some p | .stat _ => none)

/-- The paths handed to `os.Stat`, in order. -/
def tested (evs : List Event) : List Str :=
  evs.filterMap (fun e => match e with | .stat p => some p | .send _ => none)

/-- The paths, as the walk computes them, of the directories that lie exactly
`k` levels below the directory `d` visited as `path`. -/
def dirsAtLevel (path : Str) (d : Node) : Nat → List Str
  | 0 => if d.isDir then [path] else []
  | k + 1 =>
    match d with
    | .other => []
    | .dir _ _ entries => entries.flatMap (fun e => dirsAtLevel (Join [path, e.1]) e.2 k)

/-- The paths, as the walk computes them, of the directories that lie exactly
`k` levels below the directory `d` visited as `path` and whose `.git` entry
is a directory. -/
def reposAtLevel (path : Str) (d : Node) : Nat → List Str
  | 0 =>
    match d with
    | .other => []
    | .dir g _ _ => if g = some true then [path] else []
  | k + 1 =>
    match d with
    | .other => []
    | .dir _ _ entries => entries.flatMap (fun e => reposAtLevel (Join [path, e.1]) e.2 k)

/-- Whether `q` lies properly below `p` in the directory hierarchy, for clean
paths: `q` continues `p` after a separator. -/
def isProperDescendant (q p : Str) : Bool :=
  q ≠ p && (if p.getLast? = some Separator then p else p ++ [Separator]).isPrefixOf q

/-- A name that `os.ReadDir` can return: not empty, without separator, and
neither `.` nor `..`. -/
def validName (n : Str) : Bool :=
  decide (n ≠ []) && decide (Separator ∉ n) && decide (n ≠ ['.']) && decide (n ≠ dotdot)

mutual
/-- Every entry name in the tree is a name `os.ReadDir` can return. -/
def Node.validNames : Node → Bool
  | .other => true
  | .dir _ _ entries => validNamesList entries
/-- Every entry name in the trees of a list of entries is valid. -/
def validNamesList : List (Str × Node) → Bool
  | [] => true
  | (n, d) :: rest => validName n && d.validNames && validNamesList rest
end

/-- A directory built from its entries, with a consistent result for
`os.Stat` of its `.git` entry and no read error. -/
def mkDir (entries : List (Str × Node)) : Node :=
  .dir ((entries.lookup dotGit).map Node.isDir) false entries

/-! ## Subprocesses and the orchestration in `main` (lines 27-61, 144-181) -/

/-- An `exec.Cmd` as `main.go` sets it up: the argument vector, and whether
standard input, output and error are those of this process. -/
structure Cmd where
  args : List Str
  stdin : Bool
  stdout : Bool
  stderr : Bool
deriving DecidableEq

/-- What the program can observe of tmux: whether `pgrep -x "tmux: server"`
exits with status 0, the value of the environment variable `TMUX`, and
whether `tmux has-session -t name` exits with status 0. -/
structure Multiplexer where
  serverRunning : Bool
  TMUX : Str
  hasSession : Str → Bool

/-- The function `tmuxServer`: the command it runs and its result. -/
def tmuxServer (m : Multiplexer) : List Cmd × Bool :=
  ([⟨["pgrep".toList, "-x".toList, "tmux: server".toList], false, false, true⟩], m.serverRunning)

/-- The function `tmuxNewSession`: the command it runs. -/
def tmuxNewSession (name dir : Str) (detached : Bool) : List Cmd :=
  let args := ["tmux".toList, "new-session".toList]
  let args := if detached then args ++ ["-d".toList] else args
  let args := args ++ ["-s".toList, name]
  let args := args ++ ["-c".toList, dir]
  [⟨args, !detached, true, true⟩]

/-- The function `tmuxHasSession`: the command it runs and its result. -/
def tmuxHasSession (m : Multiplexer) (name : Str) : List Cmd × Bool :=
  ([⟨["tmux".toList, "has-session".toList, "-t".toList, name], false, false, false⟩],
    m.hasSession name)

/-- The function `tmuxAttach`: the command it runs. -/
def tmuxAttach (name : Str) : List Cmd :=
  [⟨["tmux".toList, "attach".toList, "-t".toList, name], true, true, true⟩]

/-- The function `tmuxSwitchClient`: the command it runs. -/
def tmuxSwitchClient (name : Str) : List Cmd :=
  [⟨["tmux".toList, "switch-client".toList, "-t".toList, name], false, false, true⟩]

/-- Lines 43-60 of `main`: the commands run for a selected path, in order. -/
def orchestrate (m : Multiplexer) (selected : Str) : List Cmd :=
  let name := sessionName selected
  let server := tmuxServer m
  let tmuxClient := decide (m.TMUX ≠ [])
  if !tmuxClient && !server.2 then
    server.1 ++ tmuxNewSession name selected false
  else
    let has := tmuxHasSession m name
    let created := if !has.2 then tmuxNewSession name selected true else []
    let final := if tmuxClient then tmuxSwitchClient name else tmuxAttach name
    server.1 ++ has.1 ++ created ++ final

/-- Whether a command is an invocation of `tmux`. -/
def Cmd.isTmux (c : Cmd) : Bool := c.args.head? = some "tmux".toList

/-- Whether a command queries or drives the multiplexer: `tmux` or the
`pgrep` server query. -/
def Cmd.isMultiplexer (c : Cmd) : Bool :=
  c.args.head? = some "tmux".toList || c.args.head? = some "pgrep".toList

/-- Whether a command is `tmux new-session`. -/
def Cmd.isNewSession (c : Cmd) : Bool :=
  c.args.take 2 = ["tmux".toList, "new-session".toList]

/-- The `tmux has-session` query for a name. -/
def hasSessionCmd (name : Str) : Cmd :=
  ⟨["tmux".toList, "has-session".toList, "-t".toList, name], false, false, false⟩

/-- The argument that follows the first occurrence of a flag. -/
def argAfter (flag : Str) : List Str → Option Str
  | a :: b :: rest => if a = flag then some b else argAfter flag (b :: rest)
  | _ => none

/-- The session a `tmux` command names: the argument of `-s` for
`new-session`, of `-t` otherwise. -/
def Cmd.target (c : Cmd) : Option Str :=
  if c.isNewSession then argAfter "-s".toList c.args else argAfter "-t".toList c.args

/-- Whether a `tmux new-session` command is detached: `-d` is its first
option. -/
def Cmd.isDetached (c : Cmd) : Bool := c.args.get? 2 = some "-d".toList

/-- A multiplexer without server, seen from outside any client, in which no
session exists. -/
def noServer : Multiplexer := { serverRunning := false, TMUX := [], hasSession := fun _ => false }

/-- A multiplexer with a running server, seen from outside any client, in
which every session exists. -/
def serverWithSessions : Multiplexer :=
  { serverRunning := true, TMUX := [], hasSession := fun _ => true }

/-- A multiplexer seen from inside a client, in which no session exists. -/
def insideClient : Multiplexer :=
  { serverRunning := true, TMUX := "/tmp/tmux-1000/default,4242,0".toList,
    hasSession := fun _ => false }

/-- The type `Scan`. -/
structure Scan where
  Path : Str
  Depth : Int
deriving DecidableEq

/-- The type `Config`. -/
structure Config where
  Scan : List Scan
  Dirs : List Str
deriving DecidableEq

/-- How `cmd.Run()` of the selector ended: without error, with the bytes it
wrote to standard output; with an `*exec.ExitError` (the process ran and
exited with a non-zero status, as `fzf` does when the user cancels); or with
another error. -/
inductive RunResult where
  | success (stdout : Str) : RunResult
  | exitError (status : Nat) : RunResult
  | failure : RunResult

/-- What `main` reads from its environment. -/
structure Env where
  lookPath : Str → Bool
  userHomeDir : Option Str
  readConfig : Str → Option Config
  fzf : RunResult
  mux : Multiplexer

/-- How the process ends: with an exit status, or by a panic. -/
inductive Exit where
  | status (code : Nat) : Exit
  | panic : Exit
deriving DecidableEq

/-- The function `checkAvailable`. -/
def checkAvailable (env : Env) (command : Str) : Bool := env.lookPath command

/-- The function `checkDependencies`. -/
def checkDependencies (env : Env) : Bool :=
  let ok := true
  let ok := if !checkAvailable env "tmux".toList then false else ok
  let ok := if !checkAvailable env "fzf".toList then false else ok
  let ok := if !checkAvailable env "pgrep".toList then false else ok
  ok

/-- The function `selectProject`, lines 76-80 and 103-114: the command it runs,
the selected string and whether a selection was made.  The goroutine that
feeds the selector is the transition system `step` below. -/
def selectProject (fzf : RunResult) : List Cmd × Str × Bool :=
  let cmd : Cmd := ⟨["fzf".toList, "--scheme=path".toList, "--tmux".toList], false, false, true⟩
  match fzf with
  | .exitError _ => ([cmd], [], false)
  | .failure => ([cmd], [], false)
  | .success out => ([cmd], TrimRightCRLF out, true)

/-- The function `main`: how the process ends and the commands it ran, in
order.  Returning from `main` is exit status 0. -/
def main (env : Env) : Exit × List Cmd :=
  if !checkDependencies env then (.status 1, [])
  else
    match resolveTildePath env.userHomeDir "~/.config/tmux-sessionizer".toList with
    | none => (.panic, [])
    | some cfgPath =>
      match env.readConfig cfgPath with
      | none => (.status 1, [])
      | some _cfg =>
        let sel := selectProject env.fzf
        if !sel.2.2 then (.status 1, sel.1)
        else (.status 0, sel.1 ++ orchestrate env.mux sel.2.1)

/-! ## The feeder of `selectProject` (lines 82-101) -/

/-- The line terminator. -/
abbrev newline : Char := Char.ofNat 10

/-- The state of the two goroutines of `selectProject`, of the pipe to the
selector and of the selector.  `dirs`: the elements of `cfg.Dirs` the loop of
line 92 has yet to write.  `scans`: the elements of `cfg.Scan` the loop of
line 85 has yet to start.  `pending`: the values the running call of
`findRepos` has yet to send on the unbuffered channel `repos`.  `chanClosed`:
`close(repos)` was executed.  `line`: the bytes of the line being written
(path and newline, lines 93-94 or 97-98) that the `pipe.Write` calls have yet
to pass on.  `offered`: the bytes of all lines whose writing has begun.
`pipe`: the bytes that reached the pipe.  `pipeClosed`: the feeder executed
`pipe.Close()`.  `selectorGone`: the selector has exited, so that the pipe has
no reader and `cmd.Run` (line 103) closes it; every `pipe.Write` fails from
then on, and its result is discarded. -/
structure Feeder where
  dirs : List Str
  scans : List Scan
  pending : List Str
  chanClosed : Bool
  line : List Char
  offered : List Char
  pipe : List Char
  pipeClosed : Bool
  selectorGone : Bool
deriving DecidableEq

/-- The moves of the two goroutines and of the selector.  `writeDir`: the
feeder takes the next static directory and begins to write it and a newline
(lines 93-94).  `nextScan`: the scanner starts the next call of `findRepos`
(line 86).  `transfer`: the scanner sends a value that the feeder, in its loop
of line 96, receives and begins to write with a newline (lines 135 and
97-98).  `writeByte`: the next byte of the line being written reaches the
pipe, or is lost when the selector has exited; a `pipe.Write` that the exit of
the selector cuts short passes on a beginning of its bytes.  `closeChan`:
line 90.  `closePipe`: the feeder leaves the loop over the closed channel and
closes the pipe (line 100).  `selectorExit`: the selector exits, at any
time. -/
inductive Action where
  | writeDir : Action
  | nextScan : Action
  | transfer : Action
  | writeByte : Action
  | closeChan : Action
  | closePipe : Action
  | selectorExit : Action
deriving DecidableEq

/-- The state when the goroutines start. -/
def Feeder.init (cfg : Config) : Feeder :=
  { dirs := cfg.Dirs, scans := cfg.Scan, pending := [], chanClosed := false,
    line := [], offered := [], pipe := [], pipeClosed := false, selectorGone := false }

/-- One move; `none` when the move is not possible in the state.  `homeDir`
is the home directory, which `main` has determined before; `lstat` gives for a
root path the result of `os.Lstat` and the tree below it. -/
def step (homeDir : Str) (lstat : Str → Option Node) : Action → Feeder → Option Feeder
  | .writeDir, s =>
    if s.line = [] then
      match s.dirs with
      | d :: rest =>
        (resolveTildePath (some homeDir) d).map
          (fun r => { s with dirs := rest, line := r ++ [newline],
                             offered := s.offered ++ (r ++ [newline]) })
      | [] => none
    else none
  | .nextScan, s =>
    if s.pending = [] then
      match s.scans with
      | sd :: rest =>
        (resolveTildePath (some homeDir) sd.Path).map
          (fun root => { s with scans := rest,
                                pending := emitted (findRepos root sd.Depth (lstat root)).1 })
      | [] => none
    else none
  | .transfer, s =>
    if s.line = [] ∧ s.dirs = [] ∧ s.pipeClosed = false then
      match s.pending with
      | r :: rest => some { s with pending := rest, line := r ++ [newline],
                                   offered := s.offered ++ (r ++ [newline]) }
      | [] => none
    else none
  | .writeByte, s =>
    match s.line with
    | c :: rest =>
      some { s with line := rest, pipe := if s.selectorGone then s.pipe else s.pipe ++ [c] }
    | [] => none
  | .closeChan, s =>
    if s.scans = [] ∧ s.pending = [] ∧ s.chanClosed = false then
      some { s with chanClosed := true }
    else none
  | .closePipe, s =>
    if s.line = [] ∧ s.dirs = [] ∧ s.chanClosed = true ∧ s.pipeClosed = false then
      some { s with pipeClosed := true }
    else none
  | .selectorExit, s =>
    if s.selectorGone = false then some { s with selectorGone := true } else none

/-- A schedule of moves, from a state. -/
def run (homeDir : Str) (lstat : Str → Option Node) : List Action → Feeder → Option Feeder
  | [], s => some s
  | a :: rest, s => (step homeDir lstat a s).bind (run homeDir lstat rest)

/-- The candidates of a configuration in the order the claim gives: the
static directories, then what each scan emits, both in configuration
order. -/
def candidates (homeDir : Str) (lstat : Str → Option Node) (cfg : Config) : List Str :=
  cfg.Dirs.map (resolveTildePathIn homeDir) ++
    cfg.Scan.flatMap (fun sd =>
      emitted (findRepos (resolveTildePathIn homeDir sd.Path) sd.Depth
        (lstat (resolveTildePathIn homeDir sd.Path))).1)

/-- The bytes of a sequence of lines, each followed by a newline. -/
def lines (ls : List Str) : List Char := ls.flatMap (fun l => l ++ [newline])

/-- The lines of a sequence of bytes: the parts between newlines, the last
one the part after the last newline. -/
def splitLines : List Char → List Str
  | [] => [[]]
  | c :: cs =>
    if c = newline then [] :: splitLines cs
    else match splitLines cs with
      | [] => [[c]]
      | x :: xs => (c :: x) :: xs

/-- An environment in which all commands are found, the home directory is
`/home/u`, the configuration is read, and the selector ends and the
multiplexer is as given. -/
def envWith (fzf : RunResult) (mux : Multiplexer) : Env :=
  { lookPath := fun _ => true
    userHomeDir := some "/home/u".toList
    readConfig := fun _ => some { Scan := [], Dirs := ["/home/u/notes".toList] }
    fzf := fzf
    mux := mux }

/-- The tree of the scenario: `a/.git` and `a/b/.git` are directories. -/
def scenarioTree : Node :=
  mkDir [("a".toList, mkDir [(".git".toList, mkDir []), ("b".toList, mkDir [(".git".toList, mkDir [])])])]

/-- A tree with one repository two levels down: `a/b/.git` is a directory. -/
def deepTree : Node :=
  mkDir [("a".toList, mkDir [("b".toList, mkDir [(".git".toList, mkDir [])])])]

/-- The walk that visits `n` as `path` also visits `m` as `q`: `m` is `n`, or
`n` is a directory that passes the depth check and `m` is visited from one of
the entries read in `n`, whose path the walk computes with `filepath.Join`.
Neither a read error of a directory nor a failed `os.Stat` plays a part. -/
inductive Reached (rootDepth depth : Int) : Str → Node → Str → Node → Prop where
  | here (path : Str) (n : Node) : Reached rootDepth depth path n path n
  | entry (path : Str) (g : Option Bool) (r : Bool) (es : List (Str × Node))
      (name : Str) (d1 : Node) (q : Str) (m : Node)
      (hdepth : (Count path Separator : Int) - rootDepth < depth)
      (hmem : (name, d1) ∈ es)
      (hrest : Reached rootDepth depth (Join [path, name]) d1 q m) :
      Reached rootDepth depth path (.dir g r es) q m

/-- A repository at the root of a tree: its `.git` entry is a directory. -/
def repoTree : Node := mkDir [(".git".toList, mkDir [])]


/-- A directory whose reading fails part-way: `os.ReadDir` reports an error
after three entries; the entry `locked` is a directory whose `.git` cannot be
examined and that cannot be read, `notes.txt` is a file, and `proj` is a
repository. -/
def faultyTree : Node :=
  .dir none true
    [("locked".toList, .dir none true []),
     ("notes.txt".toList, .other),
     ("proj".toList, repoTree)]


/-! ## The function `filepath.Clean`, element by element -/

/-- What the loop of `filepath.Clean` does with one path element, on the
stack of the elements kept so far, last element first (`Clean_eq` relates
the loop to it).  An empty element and `.` are dropped; `..` removes the last
element when there is one that is not itself a kept `..`, is kept when the
path is not rooted, and is dropped at the root; any other element is
kept. -/
def cleanStep (rooted : Bool) (out : List Str) (elem : Str) : List Str :=
  if elem = [] then out
  else if elem = ['.'] then out
  else if elem = dotdot then
    match out with
    | top :: below => if top ≠ dotdot then below else if rooted then out else elem :: out
    | [] => if rooted then out else [elem]
  else elem :: out

/-- Whether a path is rooted: it starts with the separator. -/
def isRooted (path : Str) : Bool := path.head? = some Separator

/-- The output buffer of `filepath.Clean` after its loop, as the stack of the
elements kept, last element first. -/
def cleanOut (path : Str) : List Str :=
  (splitSep path).foldl (cleanStep (isRooted path)) []

/-- The string of an output buffer of `filepath.Clean`, elements in order. -/
def render (rooted : Bool) (out : List Str) : Str :=
  if rooted then Separator :: joinSep out
  else if out = [] then ['.'] else joinSep out

/-- The buffers `filepath.Clean` can end with, last element first: names on
top of `..` elements, and no `..` element in a rooted path. -/
def StackOK (rooted : Bool) (out : List Str) : Prop :=
  ∃ (k : Nat) (names : List Str), out = names ++ List.replicate k dotdot ∧
    (∀ e ∈ names, validName e = true) ∧ (rooted = true → k = 0)

/-- The string `q` is the clean path with the buffer `out`. -/
def IsClean (q : Str) (rooted : Bool) (out : List Str) : Prop :=
  StackOK rooted out ∧ q = render rooted out.reverse


/-- What a scan entry sends on the channel. -/
def scanSends (homeDir : Str) (lstat : Str → Option Node) (sd : Scan) : List Str :=
  emitted (findRepos (resolveTildePathIn homeDir sd.Path) sd.Depth
    (lstat (resolveTildePathIn homeDir sd.Path))).1

/-- The number of moves it takes to write a line: one to begin, one for each
byte of the path and one for the newline. -/
def lineCost (l : Str) : Nat := l.length + 2

/-- The number of moves the goroutines have left in a state. -/
def movesLeft (homeDir : Str) (lstat : Str → Option Node) (s : Feeder) : Nat :=
  s.line.length + ((s.dirs.map (resolveTildePathIn homeDir)).map lineCost).sum +
    (s.pending.map lineCost).sum +
    (s.scans.map (fun sd => 1 + ((scanSends homeDir lstat sd).map lineCost).sum)).sum +
    (if s.chanClosed then 0 else 1) + (if s.pipeClosed then 0 else 1)

/-- The lines the feeder has yet to begin in a state. -/
def linesLeft (homeDir : Str) (lstat : Str → Option Node) (s : Feeder) : List Str :=
  s.dirs.map (resolveTildePathIn homeDir) ++ s.pending ++
    s.scans.flatMap (scanSends homeDir lstat)

/-- What holds in every state of the goroutines: the bytes of the lines begun
and the lines left make up the lines of all candidates; a closed channel has
nothing left to carry; the pipe is closed only after the static directories
were written, the channel was closed and the last line was passed on; the
bytes in the pipe, the bytes lost and the bytes of the line still to pass on
are the bytes of the lines begun, and no byte is lost while the selector
runs. -/
def FeederInv (homeDir : Str) (lstat : Str → Option Node) (cfg : Config) (s : Feeder) : Prop :=
  s.offered ++ lines (linesLeft homeDir lstat s) = lines (candidates homeDir lstat cfg) ∧
  (s.chanClosed = true → s.scans = [] ∧ s.pending = []) ∧
  (s.pipeClosed = true → s.dirs = [] ∧ s.chanClosed = true ∧ s.line = []) ∧
  (∃ lost, s.pipe ++ lost ++ s.line = s.offered ∧ (s.selectorGone = false → lost = []))

/-- A file system with the tree of the scenario at `/home/u/code`. -/
def scenarioLstat : Str → Option Node :=
  fun p => if p = "/home/u/code".toList then some scenarioTree else none

/-- A configuration whose static directory is also found by its scan. -/
def overlapConfig : Config :=
  { Scan := [{ Path := "~/code".toList, Depth := 2 }], Dirs := ["/home/u/code/a".toList] }


/-- The buffer of `filepath.Clean` that holds the elements of a stack, last
byte first: the elements with one separator between them, after the leading
separator of a rooted path. -/
def bufR (rooted : Bool) : List Str → Str
  | [] => if rooted then [Separator] else []
  | e :: below =>
    e.reverse ++ (if below = [] then bufR rooted [] else Separator :: bufR rooted below)

/-- The index `dotdot` of `filepath.Clean` for a stack: where backtracking
must stop, after the leading separator of a rooted path and after the `..`
elements kept at the start of a path that is not rooted. -/
def ddOf (rooted : Bool) (stack : List Str) : Nat :=
  if rooted then 1 else (bufR false (stack.filter (fun e => e = dotdot))).length


/-- The moves in which the static directory of `overlapConfig` is written
and read, the selector then exits, and the goroutines run to their end. -/
def earlyPick : List Action :=
  [.writeDir] ++ List.replicate 15 .writeByte ++ [.selectorExit, .nextScan, .transfer] ++
    List.replicate 15 .writeByte ++ [.closeChan, .closePipe]

/-- The moves in which the goroutines run to their end for `overlapConfig`
while the selector keeps running. -/
def fullFeed : List Action :=
  [.nextScan, .writeDir] ++ List.replicate 15 .writeByte ++ [.transfer] ++
    List.replicate 15 .writeByte ++ [.closeChan, .closePipe]

/-- The state after the feeder has closed the pipe for `overlapConfig`, with
the bytes that reached the pipe and whether the selector has exited. -/
def closedState (pipe : List Char) (selectorGone : Bool) : Feeder :=
  { dirs := [], scans := [], pending := [], chanClosed := true, line := [],
    offered := "/home/u/code/a\n/home/u/code/a\n".toList, pipe := pipe,
    pipeClosed := true, selectorGone := selectorGone }


/-! # Properties -/

/-! ## The models of the library functions on sample paths -/

/-- The model of `filepath.Clean` on sample paths, with the results that
`filepath.Clean` gives on Unix: clean paths, the empty path, trailing and
doubled separators, `.` elements and `..` elements. -/
theorem Clean_samples :
    [ "abc", "abc/def", "a/b/c", ".", "..", "../..", "../../abc", "/abc", "/",
      "", "abc/", "abc/def/", "a/b/c/", "./", "../", "../../", "/abc/",
      "abc//def//ghi", "abc//", "abc/./def", "/./abc/def", "abc/.",
      "abc/def/ghi/../jkl", "abc/def/../ghi/../jkl", "abc/def/..", "abc/def/../..",
      "/abc/def/../..", "abc/def/../../..", "/abc/def/../../..",
      "abc/def/../../../ghi/jkl/../../../mno", "/../abc", "//abc", "///abc", "//abc//",
      "abc/./../def", "abc//./../def", "abc/../../././../def" ].map
        (fun s => String.mk (Clean s.toList)) =
    [ "abc", "abc/def", "a/b/c", ".", "..", "../..", "../../abc", "/abc", "/",
      ".", "abc", "abc/def", "a/b/c", ".", "..", "../..", "/abc",
      "abc/def/ghi", "abc", "abc/def", "/abc/def", "abc",
      "abc/def/jkl", "abc/jkl", "abc", ".",
      "/", "..", "/",
      "../../mno", "/abc", "/abc", "/abc", "/abc",
      "def", "def", "../../def" ] := by
  decide

/-- The model of `filepath.Base` on sample paths, with the results that
`filepath.Base` gives on Unix. -/
theorem Base_samples :
    [ "", ".", "/.", "/", "////", "x/", "abc", "abc/def", "a/b/.x", "a/b/c.",
      "a/b/c.x" ].map (fun s => String.mk (Base s.toList)) =
    [ ".", ".", ".", "/", "/", "x", "abc", "def", ".x", "c.", "c.x" ] := by
  decide

/-- The model of `filepath.Join` on sample element lists, with the results
that `filepath.Join` gives on Unix. -/
theorem Join_samples :
    [ [], [""], ["a"], ["a", "b"], ["a", ""], ["", "b"], ["/", "a"], ["/", "a/b"],
      ["/", ""], ["/a", "b"], ["a", "/b"], ["/a", "/b"], ["a/", "b"], ["a/", ""],
      ["", ""], ["/", "a", "b"], ["//", "a"] ].map
        (fun es => String.mk (Join (es.map String.toList))) =
    [ "", "", "a", "a/b", "a", "b", "/a", "/a/b", "/", "/a/b", "a/b", "/a/b", "a/b", "a",
      "", "/a/b", "/a" ] := by
  decide

/-! ## Basic facts -/

/-- With a home directory, `resolveTildePath` does not panic. -/
theorem resolveTildePath_some (homeDir p : Str) :
    resolveTildePath (some homeDir) p = some (resolveTildePathIn homeDir p) := by
  unfold resolveTildePathIn resolveTildePath
  split <;> simp

/-! ## Splitting at separators -/

theorem splitSep_ne_nil (p : Str) : splitSep p ≠ [] := by
  induction p with
  | nil => simp [splitSep]
  | cons c cs ih =>
    unfold splitSep
    split
    · simp
    · split <;> simp

theorem splitSep_append (a b : Str) :
    splitSep (a ++ Separator :: b) = splitSep a ++ splitSep b := by
  induction a with
  | nil => simp [splitSep]
  | cons c cs ih =>
    by_cases hc : c = Separator
    · simp [splitSep, hc, ih]
    · have h1 := splitSep_ne_nil cs
      cases hs : splitSep cs with
      | nil => exact absurd hs h1
      | cons x xs => simp [splitSep, hc, ih, hs]

theorem splitSep_of_not_mem (e : Str) (h : Separator ∉ e) : splitSep e = [e] := by
  induction e with
  | nil => rfl
  | cons c cs ih =>
    have hc : c ≠ Separator := fun hc => h (by simp [hc])
    have hcs : Separator ∉ cs := fun hm => h (List.mem_cons_of_mem _ hm)
    simp [splitSep, hc, ih hcs]

theorem splitSep_all_sep (t : Str) (h : ∀ c ∈ t, c = Separator) :
    splitSep t = List.replicate (t.length + 1) [] := by
  induction t with
  | nil => rfl
  | cons c cs ih =>
    have hc : c = Separator := h c (by simp)
    have hcs : ∀ c ∈ cs, c = Separator := fun x hx => h x (List.mem_cons_of_mem _ hx)
    simp [splitSep, hc, ih hcs, List.replicate_succ]

theorem splitSep_elem_sep (e t : Str) (he : Separator ∉ e) (ht : ∀ c ∈ t, c = Separator) :
    splitSep (e ++ t) = e :: List.replicate t.length [] := by
  cases t with
  | nil => simp [splitSep_of_not_mem e he]
  | cons c cs =>
    have hc : c = Separator := ht c (by simp)
    have hcs : ∀ c ∈ cs, c = Separator := fun x hx => ht x (List.mem_cons_of_mem _ hx)
    subst hc
    rw [splitSep_append, splitSep_of_not_mem e he, splitSep_all_sep cs hcs]
    simp [List.replicate_succ]

theorem mem_splitSep_not_sep (p : Str) : ∀ s ∈ splitSep p, Separator ∉ s := by
  induction p with
  | nil => simp [splitSep]
  | cons c cs ih =>
    by_cases hc : c = Separator
    · intro s hs
      simp [splitSep, hc] at hs
      rcases hs with rfl | hs
      · simp
      · exact ih s hs
    · have h1 := splitSep_ne_nil cs
      cases hsp : splitSep cs with
      | nil => exact absurd hsp h1
      | cons x xs =>
        intro s hs
        simp [splitSep, hc, hsp] at hs
        rw [hsp] at ih
        rcases hs with rfl | hs
        · have hx := ih x (by simp)
          intro hm
          rcases List.mem_cons.mp hm with h | h
          · exact hc h.symm
          · exact hx h
        · exact ih s (by simp [hs])

/-- A path with a character other than the separator is `a ++ e ++ t`, where
`e` is a non-empty element without separator, `t` holds only separators, and
`a` is empty or ends in a separator. -/
theorem exists_last_elem (p : Str) (h : ∃ c ∈ p, c ≠ Separator) :
    ∃ a e t, p = a ++ e ++ t ∧ e ≠ [] ∧ Separator ∉ e ∧ (∀ c ∈ t, c = Separator) ∧
      (a = [] ∨ ∃ a1, a = a1 ++ [Separator]) := by
  induction p with
  | nil => simp at h
  | cons c cs ih =>
    by_cases hcs : ∃ x ∈ cs, x ≠ Separator
    · obtain ⟨a, e, t, hp, he, hne, ht, ha⟩ := ih hcs
      rcases ha with rfl | ⟨a1, rfl⟩
      · by_cases hc : c = Separator
        · exact ⟨[c], e, t, by simp [hp], he, hne, ht, Or.inr ⟨[], by simp [hc]⟩⟩
        · refine ⟨[], c :: e, t, by simp [hp], by simp, ?_, ht, Or.inl rfl⟩
          intro hm
          rcases List.mem_cons.mp hm with h1 | h1
          · exact hc h1.symm
          · exact hne h1
      · exact ⟨c :: a1 ++ [Separator], e, t, by simp [hp], he, hne, ht, Or.inr ⟨c :: a1, rfl⟩⟩
    · have hall : ∀ x ∈ cs, x = Separator := by
        intro x hx
        by_contra hne
        exact hcs ⟨x, hx, hne⟩
      have hc : c ≠ Separator := by
        obtain ⟨x, hx, hxne⟩ := h
        rcases List.mem_cons.mp hx with rfl | hx
        · exact hxne
        · exact absurd (hall x hx) hxne
      refine ⟨[], [c], cs, by simp, by simp, ?_, hall, Or.inl rfl⟩
      simpa using fun h => hc h.symm

theorem Base_of_last_elem (a e t : Str) (he : e ≠ []) (hne : Separator ∉ e)
    (ht : ∀ c ∈ t, c = Separator) (ha : a = [] ∨ ∃ a1, a = a1 ++ [Separator]) :
    Base (a ++ e ++ t) = e := by
  have hnil : a ++ e ++ t ≠ [] := by simp [he]
  have hrev : (a ++ e ++ t).reverse = t.reverse ++ (e.reverse ++ a.reverse) := by simp
  have h1 : (t.reverse ++ (e.reverse ++ a.reverse)).dropWhile (fun c => decide (c = Separator))
      = e.reverse ++ a.reverse := by
    rw [List.dropWhile_append_of_pos]
    · cases hr : e.reverse with
      | nil => simp at hr; exact absurd hr he
      | cons x xs =>
        have hx : x ≠ Separator := by
          intro hx
          apply hne
          have : x ∈ e.reverse := by rw [hr]; simp
          rw [← hx]; simpa using this
        simp [List.dropWhile, hx]
    · intro c hc
      simpa using ht c (by simpa using hc)
  have h2 : (e.reverse ++ a.reverse).takeWhile (fun c => decide (c ≠ Separator)) = e.reverse := by
    rw [List.takeWhile_append_of_pos]
    · rcases ha with rfl | ⟨a1, rfl⟩
      · simp
      · simp [List.takeWhile]
    · intro c hc
      have : c ∈ e := by simpa using hc
      have hcne : c ≠ Separator := fun h => hne (h ▸ this)
      simpa using hcne
  unfold Base
  simp only [hnil, if_false, List.reverse_reverse, hrev, h1, h2]
  simp [he]

theorem finalSegment_of_last_elem (a e t : Str) (he : e ≠ []) (hne : Separator ∉ e)
    (ht : ∀ c ∈ t, c = Separator) (ha : a = [] ∨ ∃ a1, a = a1 ++ [Separator]) :
    finalSegment (a ++ e ++ t) = e := by
  have hfil : ((e :: List.replicate t.length ([] : Str)).filter (fun s => decide (s ≠ []))) = [e] := by
    simp [List.filter_cons, he]
  unfold finalSegment
  rcases ha with rfl | ⟨a1, rfl⟩
  · rw [List.nil_append, splitSep_elem_sep e t hne ht, hfil]
    rfl
  · have : a1 ++ [Separator] ++ e ++ t = a1 ++ Separator :: (e ++ t) := by simp
    rw [this, splitSep_append, splitSep_elem_sep e t hne ht, List.filter_append, hfil,
      List.getLastD_concat]

theorem Base_all_sep (p : Str) (hp : p ≠ []) (h : ∀ c ∈ p, c = Separator) :
    Base p = [Separator] := by
  have h1 : p.reverse.dropWhile (fun c => decide (c = Separator)) = [] := by
    rw [List.dropWhile_eq_nil_iff]
    intro c hc
    simpa using h c (by simpa using hc)
  unfold Base
  simp [hp, h1]

/-! ## Session naming -/

/-- C1 as stated fails at the empty path (and at a path of separators only):
`filepath.Base` gives `.` there, so the session name is `-`, while the path
has no final segment. -/
theorem sessionName_empty_path :
    ¬ (sessionName [] = specSessionKey [] ∧ '.' ∉ sessionName []) ∧
    ¬ (sessionName "/".toList = specSessionKey "/".toList ∧
        '.' ∉ sessionName "/".toList) := by
  decide

/-- C1, amended: the session name never contains a period; for a path with
at least one character other than the separator (trailing separators
included) it is the final path segment with every period replaced by a
hyphen; for the empty path it is `-` and for a path of separators only it is
`/`; for `/home/u/code/my.app.v2` it is `my-app-v2`. -/
theorem sessionName_spec (p : Str) :
    '.' ∉ sessionName p ∧
    ((∃ c ∈ p, c ≠ Separator) → sessionName p = specSessionKey p) ∧
    (p = [] → sessionName p = ['-']) ∧
    (p ≠ [] → (∀ c ∈ p, c = Separator) → sessionName p = [Separator]) ∧
    sessionName "/home/u/code/my.app.v2".toList = "my-app-v2".toList := by
  refine ⟨?_, ?_, ?_, ?_, by decide⟩
  · unfold sessionName ReplaceAll
    intro hm
    obtain ⟨c, -, hc⟩ := List.mem_map.mp hm
    by_cases h : c = '.'
    · simp [h] at hc
    · simp [h] at hc
  · intro h
    obtain ⟨a, e, t, rfl, he, hne, ht, ha⟩ := exists_last_elem p h
    unfold sessionName specSessionKey
    rw [Base_of_last_elem a e t he hne ht ha, finalSegment_of_last_elem a e t he hne ht ha]
  · rintro rfl
    decide
  · intro hp h
    unfold sessionName
    rw [Base_all_sep p hp h]
    decide

/-- C1, amended, at paths of each kind. -/
theorem sessionName_spec_witness :
    sessionName "/home/u/code/my.app/".toList = specSessionKey "/home/u/code/my.app/".toList ∧
    sessionName [] = ['-'] ∧
    sessionName "///".toList = [Separator] :=
  ⟨(sessionName_spec "/home/u/code/my.app/".toList).2.1 ⟨'h', by decide, by decide⟩,
   (sessionName_spec []).2.2.1 rfl,
   (sessionName_spec "///".toList).2.2.2.1 (by decide) (by decide)⟩

/-! ## The orchestration -/

/-- The tmux commands of `orchestrate`, state by state. -/
theorem orchestrate_commands (m : Multiplexer) (selected : Str) :
    ((orchestrate m selected).filter Cmd.isTmux =
      if m.serverRunning = false ∧ m.TMUX = [] then
        [⟨["tmux".toList, "new-session".toList, "-s".toList, sessionName selected,
            "-c".toList, selected], true, true, true⟩]
      else
        [⟨["tmux".toList, "has-session".toList, "-t".toList, sessionName selected],
            false, false, false⟩] ++
        (if m.hasSession (sessionName selected) = false then
          [⟨["tmux".toList, "new-session".toList, "-d".toList, "-s".toList,
              sessionName selected, "-c".toList, selected], false, true, true⟩]
         else []) ++
        [if m.TMUX ≠ [] then
          ⟨["tmux".toList, "switch-client".toList, "-t".toList, sessionName selected],
            false, false, true⟩
         else
          ⟨["tmux".toList, "attach".toList, "-t".toList, sessionName selected],
            true, true, true⟩]) ∧
    (m.TMUX ≠ [] → ∀ c ∈ orchestrate m selected,
      c.args.take 2 ≠ ["tmux".toList, "attach".toList]) ∧
    (m.TMUX = [] → ∀ c ∈ orchestrate m selected,
      c.args.take 2 ≠ ["tmux".toList, "switch-client".toList]) := by
  rcases m with ⟨server, env, has⟩
  refine ⟨?_, ?_, ?_⟩
  · by_cases henv : env = [] <;> cases server <;>
      cases hs : has (sessionName selected) <;>
      simp [orchestrate, tmuxServer, tmuxNewSession, tmuxHasSession, tmuxAttach,
        tmuxSwitchClient, Cmd.isTmux, henv, hs, List.filter]
  · intro henv
    have henv2 : env ≠ [] := henv
    cases server <;> cases hs : has (sessionName selected) <;>
      simp [orchestrate, tmuxServer, tmuxNewSession, tmuxHasSession, tmuxAttach,
        tmuxSwitchClient, henv2, hs]
  · intro henv
    have henv2 : env = [] := henv
    cases server <;> cases hs : has (sessionName selected) <;>
      simp [orchestrate, tmuxServer, tmuxNewSession, tmuxHasSession, tmuxAttach,
        tmuxSwitchClient, henv2, hs]

/-- After a selection `main` runs the selector and then the commands of
`orchestrate` for the selected line, and returns. -/
theorem main_after_selection (env : Env) (homeDir out : Str) (cfg : Config)
    (hdeps : checkDependencies env = true) (hhome : env.userHomeDir = some homeDir)
    (hcfg : env.readConfig
      (resolveTildePathIn homeDir "~/.config/tmux-sessionizer".toList) = some cfg)
    (hfzf : env.fzf = .success out) :
    main env = (Exit.status 0,
      (selectProject env.fzf).1 ++ orchestrate env.mux (TrimRightCRLF out)) := by
  have hr := resolveTildePath_some homeDir "~/.config/tmux-sessionizer".toList
  have hsel : (selectProject env.fzf).2 = (TrimRightCRLF out, true) := by
    rw [hfzf]; rfl
  unfold main
  rw [hdeps, hhome, hr]
  simp only [hcfg, hsel]
  rfl

/-- C2: the tmux commands that `main` issues after a selection are a function
of the state.  Without server and outside a client: exactly one foreground
`new-session` (standard input attached, no `-d`) and no `has-session`.
Otherwise: `has-session`, then a detached `new-session` exactly when the query
reported the session absent, then one final command, `switch-client` inside a
client and `attach` outside; so `attach` is never issued inside a client and
`switch-client` never outside one. -/
theorem main_commands_after_selection (env : Env) (homeDir out : Str) (cfg : Config)
    (hdeps : checkDependencies env = true) (hhome : env.userHomeDir = some homeDir)
    (hcfg : env.readConfig
      (resolveTildePathIn homeDir "~/.config/tmux-sessionizer".toList) = some cfg)
    (hfzf : env.fzf = .success out) :
    ((main env).2.filter Cmd.isTmux =
      if env.mux.serverRunning = false ∧ env.mux.TMUX = [] then
        [⟨["tmux".toList, "new-session".toList, "-s".toList,
            sessionName (TrimRightCRLF out), "-c".toList, TrimRightCRLF out],
          true, true, true⟩]
      else
        [⟨["tmux".toList, "has-session".toList, "-t".toList,
            sessionName (TrimRightCRLF out)], false, false, false⟩] ++
        (if env.mux.hasSession (sessionName (TrimRightCRLF out)) = false then
          [⟨["tmux".toList, "new-session".toList, "-d".toList, "-s".toList,
              sessionName (TrimRightCRLF out), "-c".toList, TrimRightCRLF out],
            false, true, true⟩]
         else []) ++
        [if env.mux.TMUX ≠ [] then
          ⟨["tmux".toList, "switch-client".toList, "-t".toList,
            sessionName (TrimRightCRLF out)], false, false, true⟩
         else
          ⟨["tmux".toList, "attach".toList, "-t".toList,
            sessionName (TrimRightCRLF out)], true, true, true⟩]) ∧
    (env.mux.TMUX ≠ [] → ∀ c ∈ (main env).2,
      c.args.take 2 ≠ ["tmux".toList, "attach".toList]) ∧
    (env.mux.TMUX = [] → ∀ c ∈ (main env).2,
      c.args.take 2 ≠ ["tmux".toList, "switch-client".toList]) := by
  have hmain := main_after_selection env homeDir out cfg hdeps hhome hcfg hfzf
  have hsel : (selectProject env.fzf).1 =
      [⟨["fzf".toList, "--scheme=path".toList, "--tmux".toList], false, false, true⟩] := by
    rw [hfzf]; rfl
  obtain ⟨h1, h2, h3⟩ := orchestrate_commands env.mux (TrimRightCRLF out)
  rw [hmain, hsel]
  refine ⟨?_, ?_, ?_⟩
  · rw [← h1]
    simp [List.filter_cons, Cmd.isTmux]
  · intro henv c hc
    rcases List.mem_append.mp hc with hc | hc
    · simp at hc
      subst hc
      simp
    · exact h2 henv c hc
  · intro henv c hc
    rcases List.mem_append.mp hc with hc | hc
    · simp at hc
      subst hc
      simp
    · exact h3 henv c hc

/-- C2, when the line `/home/u/code/my.app.v2` is selected: with a running
server, outside a client and the session present, `has-session` and `attach`;
inside a client no `attach`. -/
theorem main_commands_after_selection_witness :
    (main (envWith (.success "/home/u/code/my.app.v2\n".toList) serverWithSessions)).2.filter
        Cmd.isTmux =
      [⟨["tmux".toList, "has-session".toList, "-t".toList, "my-app-v2".toList],
          false, false, false⟩,
       ⟨["tmux".toList, "attach".toList, "-t".toList, "my-app-v2".toList],
          true, true, true⟩] ∧
    (∀ c ∈ (main (envWith (.success "/home/u/code/my.app.v2\n".toList) serverWithSessions)).2,
      c.args.take 2 ≠ ["tmux".toList, "switch-client".toList]) ∧
    (∀ c ∈ (main (envWith (.success "/home/u/code/my.app.v2\n".toList) insideClient)).2,
      c.args.take 2 ≠ ["tmux".toList, "attach".toList]) :=
  ⟨(main_commands_after_selection
      (envWith (.success "/home/u/code/my.app.v2\n".toList) serverWithSessions)
      "/home/u".toList "/home/u/code/my.app.v2\n".toList
      { Scan := [], Dirs := ["/home/u/notes".toList] } rfl rfl rfl rfl).1.trans (by decide),
   (main_commands_after_selection
      (envWith (.success "/home/u/code/my.app.v2\n".toList) serverWithSessions)
      "/home/u".toList "/home/u/code/my.app.v2\n".toList
      { Scan := [], Dirs := ["/home/u/notes".toList] } rfl rfl rfl rfl).2.2 (by decide),
   (main_commands_after_selection
      (envWith (.success "/home/u/code/my.app.v2\n".toList) insideClient)
      "/home/u".toList "/home/u/code/my.app.v2\n".toList
      { Scan := [], Dirs := ["/home/u/notes".toList] } rfl rfl rfl rfl).2.1 (by decide)⟩

/-- The commands of `orchestrate`, state by state. -/
theorem orchestrate_eq (m : Multiplexer) (selected : Str) :
    orchestrate m selected =
      if m.serverRunning = false ∧ m.TMUX = [] then
        (tmuxServer m).1 ++ tmuxNewSession (sessionName selected) selected false
      else if m.hasSession (sessionName selected) = false then
        (tmuxServer m).1 ++ [hasSessionCmd (sessionName selected)] ++
          tmuxNewSession (sessionName selected) selected true ++
          (if m.TMUX ≠ [] then tmuxSwitchClient (sessionName selected)
           else tmuxAttach (sessionName selected))
      else
        (tmuxServer m).1 ++ [hasSessionCmd (sessionName selected)] ++
          (if m.TMUX ≠ [] then tmuxSwitchClient (sessionName selected)
           else tmuxAttach (sessionName selected)) := by
  rcases m with ⟨server, env, has⟩
  by_cases henv : env = [] <;> cases server <;>
    cases hs : has (sessionName selected) <;>
    simp [orchestrate, tmuxServer, tmuxHasSession, hasSessionCmd, henv, hs]

/-- C3 as stated fails: without server and outside a client the only tmux
command is a `new-session`, and no `has-session` query precedes it. -/
theorem new_session_without_check :
    ¬ (∀ pre c post, orchestrate noServer "/home/u/code/app".toList = pre ++ c :: post →
        c.isNewSession = true →
        ∃ n, c.target = some n ∧ hasSessionCmd n ∈ pre) := by
  intro h
  obtain ⟨n, -, hmem⟩ := h (tmuxServer noServer).1
    ⟨["tmux".toList, "new-session".toList, "-s".toList, "app".toList, "-c".toList,
      "/home/u/code/app".toList], true, true, true⟩ [] (by decide) (by decide)
  simp [tmuxServer, hasSessionCmd] at hmem

/-- C3, amended: every `new-session` names the session of the selected path;
a detached `new-session` comes after a `has-session` query of that name which
reported the session absent; the foreground `new-session` is issued only
without server and outside a client, and without a query.  Every tmux command
of a run names the session of the selected path, so two runs with the same
path target the same session; and a run that finds a server or a client, and
the session present, issues no `new-session`. -/
theorem new_session_checked_when_detached (m : Multiplexer) (selected : Str) :
    (∀ pre c post, orchestrate m selected = pre ++ c :: post → c.isNewSession = true →
      c.target = some (sessionName selected) ∧
      (c.isDetached = true →
        hasSessionCmd (sessionName selected) ∈ pre ∧
        m.hasSession (sessionName selected) = false) ∧
      (c.isDetached = false →
        m.serverRunning = false ∧ m.TMUX = [] ∧
        hasSessionCmd (sessionName selected) ∉ pre)) ∧
    (∀ c ∈ orchestrate m selected, c.isTmux = true →
      c.target = some (sessionName selected)) ∧
    ((m.serverRunning = true ∨ m.TMUX ≠ []) →
      m.hasSession (sessionName selected) = true →
      ∀ c ∈ orchestrate m selected, c.isNewSession = false) := by
  rw [orchestrate_eq]
  rcases m with ⟨server, env, has⟩
  refine ⟨?_, ?_, ?_⟩
  · intro pre c post h hnew
    by_cases henv : env = [] <;> cases server <;>
      cases hs : has (sessionName selected) <;>
      simp [tmuxServer, tmuxNewSession, tmuxAttach, tmuxSwitchClient, hasSessionCmd,
        henv, hs] at h ⊢ <;>
      rcases pre with _ | ⟨a, _ | ⟨b, _ | ⟨c2, _ | ⟨d, rest⟩⟩⟩⟩ <;>
      simp at h <;>
      (try (obtain ⟨rfl, h⟩ := h)) <;> (try (obtain ⟨rfl, h⟩ := h)) <;>
      (try (obtain ⟨rfl, h⟩ := h)) <;> (try (obtain ⟨rfl, h⟩ := h)) <;>
      (try subst h) <;>
      simp [Cmd.isNewSession, Cmd.target, Cmd.isDetached, argAfter] at hnew ⊢
  · by_cases henv : env = [] <;> cases server <;>
      cases hs : has (sessionName selected) <;>
      simp [tmuxServer, tmuxNewSession, tmuxAttach, tmuxSwitchClient, hasSessionCmd,
        henv, hs, Cmd.isTmux, Cmd.isNewSession, Cmd.target, argAfter]
  · intro hsc hhas
    have hhas2 : has (sessionName selected) = true := hhas
    by_cases henv : env = [] <;> cases server <;>
      simp [tmuxServer, tmuxNewSession, tmuxAttach, tmuxSwitchClient, hasSessionCmd,
        henv, hhas2, Cmd.isNewSession] at hsc ⊢

/-- C3, amended, at concrete states: inside a client with the session absent
the detached `new-session` follows the query; with a server and the session
present no `new-session` is issued. -/
theorem new_session_checked_when_detached_witness :
    (hasSessionCmd (sessionName "/home/u/code/app".toList) ∈
        (tmuxServer insideClient).1 ++ [hasSessionCmd "app".toList] ∧
      insideClient.hasSession (sessionName "/home/u/code/app".toList) = false) ∧
    (∀ c ∈ orchestrate serverWithSessions "/home/u/code/app".toList,
      c.isNewSession = false) :=
  ⟨((new_session_checked_when_detached insideClient "/home/u/code/app".toList).1
      ((tmuxServer insideClient).1 ++ [hasSessionCmd "app".toList])
      ⟨["tmux".toList, "new-session".toList, "-d".toList, "-s".toList, "app".toList,
        "-c".toList, "/home/u/code/app".toList], false, true, true⟩
      (tmuxSwitchClient "app".toList) (by decide) (by decide)).2.1 (by decide),
   (new_session_checked_when_detached serverWithSessions "/home/u/code/app".toList).2.2
      (Or.inl (by decide)) (by decide)⟩

/-! ## Cancelled selection -/

/-- C8 as stated fails: when the selector exits with the status of a
cancelled selection (130 for `fzf`), the process exits with status 1, not
0. -/
theorem cancelled_exit_status_not_zero :
    ¬ ((selectProject (envWith (.exitError 130) serverWithSessions).fzf).2.2 = false ∧
       (main (envWith (.exitError 130) serverWithSessions)).1 = Exit.status 0 ∧
       ∀ c ∈ (main (envWith (.exitError 130) serverWithSessions)).2, c.isMultiplexer = false) := by
  decide

/-- C8, amended: when the selector exits with a non-zero status,
`selectProject` reports that no selection was made, no multiplexer command
(`pgrep`, `tmux`) is ever issued, and the process exits with status 1. -/
theorem cancelled_selection (env : Env) (status : Nat) (homeDir : Str)
    (hfzf : env.fzf = .exitError status) (hhome : env.userHomeDir = some homeDir) :
    (selectProject env.fzf).2 = ([], false) ∧
    (main env).1 = Exit.status 1 ∧
    ∀ c ∈ (main env).2, c.isMultiplexer = false := by
  have hsel : selectProject env.fzf =
      ([⟨["fzf".toList, "--scheme=path".toList, "--tmux".toList], false, false, true⟩],
        [], false) := by
    rw [hfzf]; rfl
  have hr := resolveTildePath_some homeDir "~/.config/tmux-sessionizer".toList
  refine ⟨by rw [hsel], ?_, ?_⟩
  · unfold main
    rw [hhome, hr, hsel]
    cases checkDependencies env <;> simp; split <;> simp
  · unfold main
    rw [hhome, hr, hsel]
    cases checkDependencies env <;> simp; split <;> simp [Cmd.isMultiplexer]

/-- C8, amended, for `fzf` exiting with status 130. -/
theorem cancelled_selection_witness :
    (selectProject (envWith (.exitError 130) serverWithSessions).fzf).2 = ([], false) ∧
    (main (envWith (.exitError 130) serverWithSessions)).1 = Exit.status 1 ∧
    ∀ c ∈ (main (envWith (.exitError 130) serverWithSessions)).2, c.isMultiplexer = false :=
  cancelled_selection (envWith (.exitError 130) serverWithSessions) 130 "/home/u".toList rfl rfl

/-! ## The walk of `findRepos` -/

/-- The events of one call of the callback on a directory that passes the
depth check: the `os.Stat` of its `.git` entry, and the send when that is a
directory. -/
theorem findReposFn_dir (rootDepth depth : Int) (path : Str) (g : Option Bool) (r : Bool)
    (es : List (Str × Node)) (h : (Count path Separator : Int) - rootDepth < depth) :
    findReposFn rootDepth depth path (some (.dir g r es)) false =
      (Event.stat (Join [path, dotGit]) ::
        (if g = some true then [Event.send path] else []), none) := by
  have h2 : ¬ ((Count path Separator : Int) - rootDepth ≥ depth) := not_le.mpr h
  rcases g with _ | _ | _ <;> simp [findReposFn, h2]

theorem findReposFn_skip (rootDepth depth : Int) (path : Str) (g : Option Bool) (r : Bool)
    (es : List (Str × Node)) (h : depth ≤ (Count path Separator : Int) - rootDepth) :
    findReposFn rootDepth depth path (some (.dir g r es)) false = ([], some .skipDir) := by
  simp [findReposFn, h]

mutual
/-- The walk with the callback of `findRepos` never ends in an error. -/
theorem walkDir_findReposFn_err (rootDepth depth : Int) (path : Str) :
    ∀ n : Node, (walkDir (findReposFn rootDepth depth) path n).2 = none
  | .other => by simp [walkDir, findReposFn]
  | .dir g r es => by
    by_cases h : (Count path Separator : Int) - rootDepth < depth
    · have ih := walkEntries_findReposFn_err rootDepth depth path es
      unfold walkDir
      simp only [findReposFn_dir rootDepth depth path g r es h]
      cases r <;> simp [findReposFn, ih]
    · unfold walkDir
      simp only [findReposFn_skip rootDepth depth path g r es (not_lt.mp h)]
      simp
/-- The loop over the entries never ends in an error. -/
theorem walkEntries_findReposFn_err (rootDepth depth : Int) (path : Str) :
    ∀ es : List (Str × Node), (walkEntries (findReposFn rootDepth depth) path es).2 = none
  | [] => by simp [walkEntries]
  | (name, d1) :: rest => by
    have ih1 := walkDir_findReposFn_err rootDepth depth (Join [path, name]) d1
    have ih2 := walkEntries_findReposFn_err rootDepth depth path rest
    unfold walkEntries
    simp [ih1, ih2]
end

/-- The events of the walk of a directory that passes the depth check: those
of the callback, then those of its entries. -/
theorem walkDir_dir (rootDepth depth : Int) (path : Str) (g : Option Bool) (r : Bool)
    (es : List (Str × Node)) (h : (Count path Separator : Int) - rootDepth < depth) :
    (walkDir (findReposFn rootDepth depth) path (.dir g r es)).1 =
      Event.stat (Join [path, dotGit]) ::
        ((if g = some true then [Event.send path] else []) ++
          (walkEntries (findReposFn rootDepth depth) path es).1) := by
  unfold walkDir
  simp only [findReposFn_dir rootDepth depth path g r es h]
  cases r <;> simp [findReposFn]

/-- A directory at or beyond the depth limit is skipped: no event. -/
theorem walkDir_skip (rootDepth depth : Int) (path : Str) (n : Node)
    (h : depth ≤ (Count path Separator : Int) - rootDepth) :
    (walkDir (findReposFn rootDepth depth) path n).1 = [] := by
  cases n with
  | other => simp [walkDir, findReposFn]
  | dir g r es =>
    unfold walkDir
    simp only [findReposFn_skip rootDepth depth path g r es h]
    simp

theorem walkDir_other (rootDepth depth : Int) (path : Str) :
    (walkDir (findReposFn rootDepth depth) path .other).1 = [] := by
  simp [walkDir, findReposFn]

/-- The events of the loop over the entries: those of each entry, in order;
no entry stops the loop. -/
theorem walkEntries_events (rootDepth depth : Int) (path : Str) (es : List (Str × Node)) :
    (walkEntries (findReposFn rootDepth depth) path es).1 =
      es.flatMap (fun e => (walkDir (findReposFn rootDepth depth) (Join [path, e.1]) e.2).1) := by
  induction es with
  | nil => simp [walkEntries]
  | cons e rest ih =>
    obtain ⟨name, d1⟩ := e
    have h1 := walkDir_findReposFn_err rootDepth depth (Join [path, name]) d1
    unfold walkEntries
    simp [h1, ih]

/-- The events of `findRepos` on a root that `os.Lstat` finds are those of
the walk from the root. -/
theorem findRepos_some (root : Str) (depth : Int) (n : Node) :
    findRepos root depth (some n) =
      ((walkDir (findReposFn (Count root Separator) depth) root n).1, none) := by
  have h := walkDir_findReposFn_err (Count root Separator) depth root n
  simp [findRepos, WalkDir, h]

theorem findRepos_none (root : Str) (depth : Int) :
    findRepos root depth none = ([], none) := by
  simp [findRepos, WalkDir, findReposFn]

theorem emitted_append (a b : List Event) : emitted (a ++ b) = emitted a ++ emitted b := by
  simp [emitted, List.filterMap_append]

theorem mem_emitted_flatMap {α : Type} (l : List α) (f : α → List Event) (q : Str) :
    q ∈ emitted (l.flatMap f) ↔ ∃ e ∈ l, q ∈ emitted (f e) := by
  induction l with
  | nil => simp [emitted]
  | cons a rest ih => simp [List.flatMap_cons, emitted_append, ih]

mutual
theorem reached_of_mem_walkDir (rootDepth depth : Int) (q : Str) (path : Str) :
    ∀ n : Node, q ∈ emitted (walkDir (findReposFn rootDepth depth) path n).1 →
      ∃ r es, Reached rootDepth depth path n q (.dir (some true) r es) ∧
        (Count q Separator : Int) - rootDepth < depth
  | .other => by
    intro h
    rw [walkDir_other] at h
    simp [emitted] at h
  | .dir g r es => by
    intro h
    by_cases hd : (Count path Separator : Int) - rootDepth < depth
    · rw [walkDir_dir rootDepth depth path g r es hd] at h
      have h2 : q ∈ emitted (if g = some true then [Event.send path] else []) ∨
          q ∈ emitted (walkEntries (findReposFn rootDepth depth) path es).1 := by
        have : emitted (Event.stat (Join [path, dotGit]) ::
            ((if g = some true then [Event.send path] else []) ++
              (walkEntries (findReposFn rootDepth depth) path es).1)) =
            emitted (if g = some true then [Event.send path] else []) ++
              emitted (walkEntries (findReposFn rootDepth depth) path es).1 := by
          rw [← emitted_append]; simp [emitted]
        rw [this] at h
        exact List.mem_append.mp h
      rcases h2 with h2 | h2
      · by_cases hg : g = some true
        · simp [hg, emitted] at h2
          subst h2
          subst hg
          exact ⟨r, es, Reached.here _ _, hd⟩
        · simp [hg, emitted] at h2
      · obtain ⟨name, d1, hmem, r2, es2, hr, hq⟩ :=
          reached_of_mem_walkEntries rootDepth depth q path es h2
        exact ⟨r2, es2, Reached.entry path g r es name d1 q _ hd hmem hr, hq⟩
    · rw [walkDir_skip rootDepth depth path _ (not_lt.mp hd)] at h
      simp [emitted] at h
theorem reached_of_mem_walkEntries (rootDepth depth : Int) (q : Str) (path : Str) :
    ∀ es : List (Str × Node),
      q ∈ emitted (walkEntries (findReposFn rootDepth depth) path es).1 →
      ∃ name d1, (name, d1) ∈ es ∧ ∃ r es2,
        Reached rootDepth depth (Join [path, name]) d1 q (.dir (some true) r es2) ∧
        (Count q Separator : Int) - rootDepth < depth
  | [] => by
    intro h
    simp [walkEntries, emitted] at h
  | (name, d1) :: rest => by
    intro h
    rw [walkEntries_events, List.flatMap_cons, emitted_append, List.mem_append] at h
    rcases h with h | h
    · obtain ⟨r, es2, hr, hq⟩ := reached_of_mem_walkDir rootDepth depth q (Join [path, name]) d1 h
      exact ⟨name, d1, by simp, r, es2, hr, hq⟩
    · rw [← walkEntries_events] at h
      obtain ⟨name2, d2, hmem, hrest⟩ := reached_of_mem_walkEntries rootDepth depth q path rest h
      exact ⟨name2, d2, List.mem_cons_of_mem _ hmem, hrest⟩
end

theorem mem_walkDir_of_reached (rootDepth depth : Int) (path : Str) (n : Node) (q : Str)
    (m : Node) (h : Reached rootDepth depth path n q m) :
    ∀ r es, m = .dir (some true) r es → (Count q Separator : Int) - rootDepth < depth →
      q ∈ emitted (walkDir (findReposFn rootDepth depth) path n).1 := by
  induction h with
  | here path n =>
    intro r es hm hq
    subst hm
    rw [walkDir_dir rootDepth depth path _ r es hq]
    simp [emitted]
  | entry path g r es name d1 q m hdepth hmem _ ih =>
    intro r2 es2 hm hq
    rw [walkDir_dir rootDepth depth path g r es hdepth, walkEntries_events]
    have h1 : q ∈ emitted (es.flatMap (fun e =>
        (walkDir (findReposFn rootDepth depth) (Join [path, e.1]) e.2).1)) :=
      (mem_emitted_flatMap es _ q).mpr ⟨(name, d1), hmem, ih r2 es2 hm hq⟩
    have h2 : ∀ (a b : List Event) (e : Event), q ∈ emitted b → q ∈ emitted (e :: (a ++ b)) := by
      intro a b e hb
      have : e :: (a ++ b) = (e :: a) ++ b := rfl
      rw [this, emitted_append]
      exact List.mem_append_right _ hb
    exact h2 _ _ _ h1

/-- What the walk emits: exactly the directories it reaches that pass the
depth check and whose `.git` entry is a directory. -/
theorem mem_emitted_walkDir (rootDepth depth : Int) (path : Str) (n : Node) (q : Str) :
    q ∈ emitted (walkDir (findReposFn rootDepth depth) path n).1 ↔
      ∃ r es, Reached rootDepth depth path n q (.dir (some true) r es) ∧
        (Count q Separator : Int) - rootDepth < depth :=
  ⟨reached_of_mem_walkDir rootDepth depth q path n,
   fun ⟨r, es, hr, hq⟩ => mem_walkDir_of_reached rootDepth depth path n q _ hr r es rfl hq⟩

/-! ## Depth zero and the root -/

/-- C5 as stated fails: with depth 0 the depth check comes first and skips
the root, so a root whose `.git` entry is a directory is neither tested nor
emitted. -/
theorem root_skipped_at_depth_zero :
    ¬ ("/home/u/code/a".toList ∈ emitted (findRepos "/home/u/code/a".toList 0 (some repoTree)).1 ∧
       tested (findRepos "/home/u/code/a".toList 0 (some repoTree)).1 =
         ["/home/u/code/a/.git".toList]) := by
  decide

/-- C5, amended: for every depth of at least 1 a root that is a directory
passes the depth check and its `.git` entry is examined, before anything
else, and a root whose `.git` entry is a directory is emitted, as the first
candidate; with a depth of 0 or less the depth check skips the root, so
nothing is tested and nothing is emitted. -/
theorem root_tested_from_depth_one (root : Str) (depth : Int) :
    (1 ≤ depth → ∀ g r es, ∃ rest,
      (findRepos root depth (some (.dir g r es))).1 =
        Event.stat (Join [root, dotGit]) ::
          ((if g = some true then [Event.send root] else []) ++ rest)) ∧
    (depth ≤ 0 → ∀ info, (findRepos root depth info).1 = []) := by
  constructor
  · intro hd g r es
    have h : (Count root Separator : Int) - (Count root Separator : Int) < depth := by omega
    rw [findRepos_some, walkDir_dir _ _ _ _ _ _ h]
    exact ⟨(walkEntries (findReposFn (Count root Separator) depth) root es).1, rfl⟩
  · intro hd info
    cases info with
    | none => rw [findRepos_none]
    | some n =>
      have h : depth ≤ (Count root Separator : Int) - (Count root Separator : Int) := by omega
      rw [findRepos_some, walkDir_skip _ _ _ _ h]

/-- C5, amended, at depth 1 and at depth 0 for a repository at the root. -/
theorem root_tested_from_depth_one_witness :
    (∃ rest, (findRepos "/home/u/code/a".toList 1 (some repoTree)).1 =
        Event.stat (Join ["/home/u/code/a".toList, dotGit]) ::
          ([Event.send "/home/u/code/a".toList] ++ rest)) ∧
    (findRepos "/home/u/code/a".toList 0 (some repoTree)).1 = [] :=
  ⟨(root_tested_from_depth_one "/home/u/code/a".toList 1).1 (by decide) (some true) false
      [(".git".toList, mkDir [])],
   (root_tested_from_depth_one "/home/u/code/a".toList 0).2 (by decide) (some repoTree)⟩

/-! ## Nested repositories -/

/-- C6 as stated fails: with depth 3 in the tree of the scenario both
`/home/u/code/a` and the repository `/home/u/code/a/b` nested in it are
emitted. -/
theorem nested_repository_emitted :
    ¬ (∀ p ∈ emitted (findRepos "/home/u/code".toList 3 (some scenarioTree)).1,
        ∀ q ∈ emitted (findRepos "/home/u/code".toList 3 (some scenarioTree)).1,
          isProperDescendant q p = false) := by
  decide

/-- C6, amended: a path is emitted exactly when the walk reaches it through
directories that pass the depth check, it passes the depth check itself, and
its `.git` entry is a directory; whether a directory above it was emitted
plays no part, the walk descends beneath an emitted directory.  In the
scenario with root `/home/u/code` and depth 2 the only path emitted is
`/home/u/code/a`: the nested `a/b` is at the depth limit. -/
theorem emitted_iff_reached (root : Str) (depth : Int) (n : Node) (q : Str) :
    (q ∈ emitted (findRepos root depth (some n)).1 ↔
      ∃ r es, Reached (Count root Separator) depth root n q (.dir (some true) r es) ∧
        (Count q Separator : Int) - (Count root Separator : Int) < depth) ∧
    emitted (findRepos "/home/u/code".toList 2 (some scenarioTree)).1 =
      ["/home/u/code/a".toList] := by
  refine ⟨?_, by decide⟩
  rw [findRepos_some]
  exact mem_emitted_walkDir _ _ _ _ _

/-- C6, amended, in the scenario with depth 3: the nested repository is
reached through the emitted `/home/u/code/a`, and it is emitted. -/
theorem emitted_iff_reached_witness :
    "/home/u/code/a/b".toList ∈
      emitted (findRepos "/home/u/code".toList 3 (some scenarioTree)).1 :=
  ((emitted_iff_reached "/home/u/code".toList 3 scenarioTree "/home/u/code/a/b".toList).1).2
    ⟨false, [(".git".toList, mkDir [])],
      Reached.entry _ _ _ _ "a".toList
        (mkDir [(".git".toList, mkDir []),
          ("b".toList, mkDir [(".git".toList, mkDir [])])]) _ _
        (by decide) (List.mem_cons_self _ _)
        (Reached.entry _ _ _ _ "b".toList (mkDir [(".git".toList, mkDir [])]) _ _
          (by decide) (List.mem_cons_of_mem _ (List.mem_cons_self _ _))
          (Reached.here _ _)),
      by decide⟩

/-! ## The function `filepath.Clean` -/

theorem validName_iff (e : Str) :
    validName e = true ↔ e ≠ [] ∧ Separator ∉ e ∧ e ≠ ['.'] ∧ e ≠ dotdot := by
  simp [validName, and_assoc]

theorem cleanStep_valid (rooted : Bool) (out : List Str) (e : Str) (h : validName e = true) :
    cleanStep rooted out e = e :: out := by
  obtain ⟨h1, -, h3, h4⟩ := (validName_iff e).1 h
  simp [cleanStep, h1, h3, h4]

theorem foldl_cleanStep_valid (rooted : Bool) (names : List Str)
    (h : ∀ e ∈ names, validName e = true) (out : List Str) :
    names.foldl (cleanStep rooted) out = names.reverse ++ out := by
  induction names generalizing out with
  | nil => rfl
  | cons e rest ih =>
    rw [List.foldl_cons, cleanStep_valid rooted out e (h e (by simp)),
      ih (fun x hx => h x (List.mem_cons_of_mem _ hx))]
    simp

theorem cleanStep_dotdot_unrooted (k : Nat) :
    cleanStep false (List.replicate k dotdot) dotdot = List.replicate (k + 1) dotdot := by
  cases k with
  | zero => simp [cleanStep]
  | succ j => simp [cleanStep, List.replicate_succ]

theorem foldl_cleanStep_dotdots (k j : Nat) :
    (List.replicate k dotdot).foldl (cleanStep false) (List.replicate j dotdot) =
      List.replicate (k + j) dotdot := by
  induction k generalizing j with
  | zero => simp
  | succ i ih =>
    rw [List.replicate_succ, List.foldl_cons, cleanStep_dotdot_unrooted, ih]
    congr 1
    omega

theorem stackOK_nil (rooted : Bool) : StackOK rooted [] :=
  ⟨0, [], by simp, by simp, fun _ => rfl⟩

theorem stackOK_push (rooted : Bool) (out : List Str) (e : Str) (h : StackOK rooted out)
    (he : validName e = true) : StackOK rooted (e :: out) := by
  obtain ⟨k, names, rfl, hn, hk⟩ := h
  refine ⟨k, e :: names, by simp, ?_, hk⟩
  intro x hx
  rcases List.mem_cons.mp hx with rfl | hx
  · exact he
  · exact hn x hx

theorem cleanStep_ok (rooted : Bool) (out : List Str) (e : Str) (h : StackOK rooted out)
    (he : Separator ∉ e) : StackOK rooted (cleanStep rooted out e) := by
  by_cases h1 : e = []
  · simpa [cleanStep, h1] using h
  by_cases h2 : e = ['.']
  · simpa [cleanStep, h2] using h
  by_cases h3 : e = dotdot
  · subst h3
    obtain ⟨k, names, rfl, hn, hk⟩ := h
    cases names with
    | nil =>
      cases rooted with
      | true =>
        have hk0 : k = 0 := hk rfl
        subst hk0
        simpa [cleanStep] using stackOK_nil true
      | false =>
        rw [List.nil_append, cleanStep_dotdot_unrooted]
        exact ⟨k + 1, [], by simp, by simp, by simp⟩
    | cons top rest =>
      have htop : top ≠ dotdot := ((validName_iff top).1 (hn top (by simp))).2.2.2
      have : cleanStep rooted (top :: rest ++ List.replicate k dotdot) dotdot =
          rest ++ List.replicate k dotdot := by
        simp [cleanStep, htop]
      rw [this]
      exact ⟨k, rest, rfl, fun x hx => hn x (List.mem_cons_of_mem _ hx), hk⟩
  · have hv : validName e = true := (validName_iff e).2 ⟨h1, he, h2, h3⟩
    rw [cleanStep_valid rooted out e hv]
    exact stackOK_push rooted out e h hv

theorem foldl_cleanStep_ok (rooted : Bool) (elems : List Str) (h : ∀ e ∈ elems, Separator ∉ e)
    (out : List Str) (ho : StackOK rooted out) :
    StackOK rooted (elems.foldl (cleanStep rooted) out) := by
  induction elems generalizing out with
  | nil => exact ho
  | cons e rest ih =>
    rw [List.foldl_cons]
    exact ih (fun x hx => h x (List.mem_cons_of_mem _ hx)) _
      (cleanStep_ok rooted out e ho (h e (by simp)))

theorem cleanOut_ok (path : Str) : StackOK (isRooted path) (cleanOut path) :=
  foldl_cleanStep_ok _ _ (mem_splitSep_not_sep path) [] (stackOK_nil _)

theorem stackOK_elem (rooted : Bool) (out : List Str) (h : StackOK rooted out) :
    ∀ e ∈ out, e ≠ [] ∧ Separator ∉ e := by
  obtain ⟨k, names, rfl, hn, -⟩ := h
  intro e he
  rcases List.mem_append.mp he with he | he
  · obtain ⟨h1, h2, -, -⟩ := (validName_iff e).1 (hn e he)
    exact ⟨h1, h2⟩
  · have : e = dotdot := List.eq_of_mem_replicate he
    subst this
    decide

/-! ## The loop of `filepath.Clean`, byte by byte -/

theorem joinSep_snoc (l : List Str) (e : Str) :
    joinSep (l ++ [e]) = if l = [] then e else joinSep l ++ Separator :: e := by
  induction l with
  | nil => simp [joinSep]
  | cons a rest ih =>
    cases rest with
    | nil => simp [joinSep]
    | cons b rest2 =>
      have h1 : joinSep (a :: b :: rest2 ++ [e]) = a ++ Separator :: joinSep (b :: rest2 ++ [e]) := rfl
      have h2 : joinSep (a :: b :: rest2) = a ++ Separator :: joinSep (b :: rest2) := rfl
      rw [h1, ih, h2]
      simp

theorem reverse_bufR (rooted : Bool) (stack : List Str) :
    (bufR rooted stack).reverse =
      if rooted then Separator :: joinSep stack.reverse else joinSep stack.reverse := by
  induction stack with
  | nil => cases rooted <;> simp [bufR, joinSep]
  | cons e below ih =>
    cases below with
    | nil => cases rooted <;> simp [bufR, joinSep]
    | cons b rest =>
      have hne : (b :: rest).reverse ≠ [] := by simp
      have h1 : bufR rooted (e :: b :: rest) = e.reverse ++ Separator :: bufR rooted (b :: rest) := by
        simp [bufR]
      rw [h1, List.reverse_append, List.reverse_cons (a := Separator), ih, List.reverse_reverse,
        List.reverse_cons (a := e), joinSep_snoc, if_neg hne]
      cases rooted <;> simp

theorem length_bufR_nil (rooted : Bool) : (bufR rooted []).length = if rooted then 1 else 0 := by
  cases rooted <;> simp [bufR]

theorem length_bufR_cons (rooted : Bool) (e : Str) (below : List Str) :
    (bufR rooted (e :: below)).length =
      e.length + (if below = [] then 0 else 1) + (bufR rooted below).length := by
  cases below with
  | nil => simp [bufR]
  | cons b rest => simp [bufR]; omega

theorem bufR_push (rooted : Bool) (e : Str) (stack : List Str) :
    bufR rooted (e :: stack) =
      e.reverse ++ (if stack = [] then bufR rooted stack else Separator :: bufR rooted stack) := by
  cases stack <;> simp [bufR]

/-- Whether the buffer holds an element, as the loop tests it before it adds
a separator. -/
theorem needSlash_iff (rooted : Bool) (stack : List Str) (h : ∀ e ∈ stack, e ≠ []) :
    ((rooted && (bufR rooted stack).length != 1) || (!rooted && (bufR rooted stack).length != 0))
      = decide (stack ≠ []) := by
  cases stack with
  | nil => cases rooted <;> simp [bufR]
  | cons e below =>
    have he : e ≠ [] := h e (by simp)
    have hl : 0 < e.length := List.length_pos.mpr he
    have h1 := length_bufR_cons rooted e below
    have h2 : (if rooted then 1 else 0) ≤ (bufR rooted below).length := by
      cases below with
      | nil => rw [length_bufR_nil]
      | cons b rest =>
        rw [length_bufR_cons]
        cases rooted
        · simp
        · have : (if rest = [] then 0 else 1) + (bufR true rest).length ≥ 1 := by
            cases rest with
            | nil => simp [bufR]
            | cons c r2 => simp
          simp only [if_true]
          omega
    cases rooted
    · simp only [Bool.false_and, Bool.not_false, Bool.true_and, Bool.false_or]
      have : (bufR false (e :: below)).length ≠ 0 := by omega
      simp [this]
    · simp only [Bool.true_and, Bool.not_true, Bool.false_and, Bool.or_false]
      simp only [if_true] at h2
      have : (bufR true (e :: below)).length ≠ 1 := by omega
      simp [this]

theorem length_bufR_append_ge (rooted : Bool) (names base : List Str) :
    (bufR rooted base).length ≤ (bufR rooted (names ++ base)).length := by
  induction names with
  | nil => simp
  | cons n ns ih =>
    rw [List.cons_append, length_bufR_cons]
    omega

theorem length_bufR_append_gt (rooted : Bool) (names base : List Str)
    (h : ∀ e ∈ names, e ≠ []) (hn : names ≠ []) :
    (bufR rooted base).length < (bufR rooted (names ++ base)).length := by
  cases names with
  | nil => exact absurd rfl hn
  | cons n ns =>
    have hl : 0 < n.length := List.length_pos.mpr (h n (by simp))
    have := length_bufR_append_ge rooted ns base
    rw [List.cons_append, length_bufR_cons]
    omega

theorem filter_dotdot (names : List Str) (k : Nat) (h : ∀ e ∈ names, validName e = true) :
    (names ++ List.replicate k dotdot).filter (fun e => decide (e = dotdot)) =
      List.replicate k dotdot := by
  have h1 : names.filter (fun e => decide (e = dotdot)) = [] := by
    rw [List.filter_eq_nil_iff]
    intro e he
    have := ((validName_iff e).1 (h e he)).2.2.2
    simpa using this
  rw [List.filter_append, h1, List.nil_append, List.filter_replicate_of_pos (by simp)]

theorem ddOf_stack (rooted : Bool) (names : List Str) (k : Nat)
    (h : ∀ e ∈ names, validName e = true) (hk : rooted = true → k = 0) :
    ddOf rooted (names ++ List.replicate k dotdot) =
      (bufR rooted (List.replicate k dotdot)).length := by
  unfold ddOf
  cases rooted with
  | true =>
    have : k = 0 := hk rfl
    subst this
    simp [bufR]
  | false =>
    simp only [Bool.false_eq_true, if_false]
    rw [filter_dotdot names k h]

theorem ddOf_le (rooted : Bool) (stack : List Str) (h : StackOK rooted stack) :
    ddOf rooted stack ≤ (bufR rooted stack).length := by
  obtain ⟨k, names, rfl, hn, hk⟩ := h
  rw [ddOf_stack rooted names k hn hk]
  exact length_bufR_append_ge rooted names _

/-- The test `out.w > dotdot` of the `..` case: the buffer ends in a name. -/
theorem canBacktrack_iff (rooted : Bool) (names : List Str) (k : Nat)
    (h : ∀ e ∈ names, validName e = true) (hk : rooted = true → k = 0) :
    ddOf rooted (names ++ List.replicate k dotdot) <
        (bufR rooted (names ++ List.replicate k dotdot)).length ↔ names ≠ [] := by
  rw [ddOf_stack rooted names k h hk]
  constructor
  · intro hlt hnil
    subst hnil
    simp at hlt
  · intro hne
    exact length_bufR_append_gt rooted names _
      (fun e he => ((validName_iff e).1 (h e he)).1) hne

theorem backtrackLoop_elem (rooted : Bool) (dd : Nat) (below : List Str)
    (hdd : dd ≤ (bufR rooted below).length) (hroot : rooted = true → 1 ≤ dd) :
    ∀ (cs : Str) (last : Char), (∀ c ∈ cs, c ≠ Separator) → last ≠ Separator →
      backtrackLoop dd last
        (cs ++ (if below = [] then bufR rooted below else Separator :: bufR rooted below)) =
      bufR rooted below := by
  intro cs
  induction cs with
  | nil =>
    intro last _ hlast
    by_cases hb : below = []
    · subst hb
      cases rooted with
      | true =>
        have := hroot rfl
        have h1 : ¬ (1 > dd) := by omega
        simp [bufR, backtrackLoop, h1]
      | false => simp [bufR, backtrackLoop]
    · simp only [hb, if_false, List.nil_append]
      have h1 : (Separator :: bufR rooted below).length > dd := by
        simp only [List.length_cons]
        omega
      rw [backtrackLoop, if_pos ⟨h1, hlast⟩]
      cases hbuf : bufR rooted below with
      | nil => rfl
      | cons c rest => simp [backtrackLoop]
  | cons c cs ih =>
    intro last hcs hlast
    have hc : c ≠ Separator := hcs c (by simp)
    have h1 : (c :: (cs ++ (if below = [] then bufR rooted below
        else Separator :: bufR rooted below))).length > dd := by
      simp only [List.length_cons, List.length_append]
      split
      · omega
      · simp only [List.length_cons]
        omega
    rw [List.cons_append, backtrackLoop, if_pos ⟨h1, hlast⟩]
    exact ih c (fun x hx => hcs x (List.mem_cons_of_mem _ hx)) hc

/-- Backtracking removes the name that ends the buffer, with the separator
before it. -/
theorem backtrack_bufR (rooted : Bool) (top : Str) (below : List Str)
    (htop : validName top = true) (hok : StackOK rooted below) :
    backtrack (ddOf rooted (top :: below)) (bufR rooted (top :: below)) = bufR rooted below := by
  obtain ⟨hne, hsep, -, hdot⟩ := (validName_iff top).1 htop
  have hdd : ddOf rooted (top :: below) = ddOf rooted below := by
    unfold ddOf
    simp [List.filter_cons, hdot]
  have hroot : rooted = true → 1 ≤ ddOf rooted below := by
    intro hr
    simp [ddOf, hr]
  rw [hdd, bufR_push]
  cases hrev : top.reverse with
  | nil => simp at hrev; exact absurd hrev hne
  | cons last cs =>
    have hmem : ∀ c ∈ last :: cs, c ≠ Separator := by
      intro c hc hcs
      apply hsep
      have : c ∈ top.reverse := by rw [hrev]; exact hc
      rw [← hcs]
      simpa using this
    rw [List.cons_append, backtrack]
    exact backtrackLoop_elem rooted _ below (ddOf_le rooted below hok) hroot cs last
      (fun c hc => hmem c (List.mem_cons_of_mem _ hc)) (hmem last (by simp))

theorem cleanLoop_nil (rooted flag : Bool) (out : Str) (dd : Nat) :
    cleanLoop rooted [] flag out dd = out := by
  cases flag <;> simp [cleanLoop]

theorem cleanLoop_sep_cons (rooted : Bool) (t out : Str) (dd : Nat) :
    cleanLoop rooted (Separator :: t) false out dd = cleanLoop rooted t false out dd := by
  cases t <;> simp [cleanLoop]

theorem cleanLoop_dot (rooted : Bool) (rest out : Str) (dd : Nat)
    (h : rest = [] ∨ rest.head? = some Separator) :
    cleanLoop rooted ('.' :: rest) false out dd = cleanLoop rooted rest false out dd := by
  cases rest with
  | nil => simp [cleanLoop]
  | cons c2 rest2 =>
    have hc : c2 = Separator := by
      rcases h with h | h
      · simp at h
      · simpa using h
    subst hc
    simp [cleanLoop]

theorem cleanLoop_dotdot (rooted : Bool) (rest out : Str) (dd : Nat)
    (h : rest = [] ∨ rest.head? = some Separator) :
    cleanLoop rooted ('.' :: '.' :: rest) false out dd =
      if out.length > dd then cleanLoop rooted rest false (backtrack dd out) dd
      else if (!rooted) = true then
        cleanLoop rooted rest false
          ('.' :: '.' :: (if out.length > 0 then Separator :: out else out))
          ('.' :: '.' :: (if out.length > 0 then Separator :: out else out)).length
      else cleanLoop rooted rest false out dd := by
  have hne : ('.' : Char) ≠ Separator := by decide
  have h2 : ¬ (('.' : Char) = '.' ∧ (('.' :: rest) = [] ∨
      ('.' :: rest).head? = some Separator)) := by
    rintro ⟨-, h3 | h3⟩
    · exact List.cons_ne_nil _ _ h3
    · exact absurd (Option.some.inj h3) (by decide)
  have h3 : (('.' : Char) = '.' ∧ ('.' : Char) = '.' ∧
      (rest = [] ∨ rest.head? = some Separator)) := ⟨rfl, rfl, h⟩
  conv_lhs => rw [cleanLoop]
  rw [if_neg hne, if_neg h2, if_pos h3]

theorem cleanLoop_real (rooted : Bool) (c : Char) (rest out : Str) (dd : Nat)
    (hc : c ≠ Separator)
    (h2 : ¬ (c = '.' ∧ (rest = [] ∨ rest.head? = some Separator)))
    (h3 : ¬ (c = '.' ∧ ∃ rest2, rest = '.' :: rest2 ∧
      (rest2 = [] ∨ rest2.head? = some Separator))) :
    cleanLoop rooted (c :: rest) false out dd =
      cleanLoop rooted rest true
        (c :: (if ((rooted && out.length != 1) || (!rooted && out.length != 0)) = true
          then Separator :: out else out)) dd := by
  cases rest with
  | nil =>
    conv_lhs => rw [cleanLoop]
    rw [if_neg hc, if_neg h2]
  | cons c2 rest2 =>
    have h3b : ¬ (c = '.' ∧ c2 = '.' ∧ (rest2 = [] ∨ rest2.head? = some Separator)) := by
      rintro ⟨h, rfl, h4⟩
      exact h3 ⟨h, rest2, rfl, h4⟩
    conv_lhs => rw [cleanLoop]
    rw [if_neg hc, if_neg h2]
    simp only [if_neg h3b]

/-- At the end of an element the loop passes the separator that follows. -/
theorem cleanLoop_sep (rooted : Bool) (tail : Str) (out : Str) (dd : Nat)
    (htail : tail = [] ∨ ∃ t, tail = Separator :: t) :
    cleanLoop rooted tail false out dd = cleanLoop rooted tail.tail false out dd := by
  rcases htail with rfl | ⟨t, rfl⟩
  · rfl
  · exact cleanLoop_sep_cons rooted t out dd

/-- The inner loop copies an element up to the separator or the end. -/
theorem cleanLoop_copy (rooted : Bool) (tail : Str) (dd : Nat)
    (htail : tail = [] ∨ ∃ t, tail = Separator :: t) :
    ∀ (cs out : Str), (∀ c ∈ cs, c ≠ Separator) →
      cleanLoop rooted (cs ++ tail) true out dd =
        cleanLoop rooted tail.tail false (cs.reverse ++ out) dd := by
  intro cs
  induction cs with
  | nil =>
    intro out _
    rcases htail with rfl | ⟨t, rfl⟩
    · simp [cleanLoop_nil]
    · simp [cleanLoop]
  | cons c cs ih =>
    intro out hcs
    have hc : c ≠ Separator := hcs c (by simp)
    rw [List.cons_append, cleanLoop, if_neg hc, ih (c :: out)
      (fun x hx => hcs x (List.mem_cons_of_mem _ hx))]
    simp

theorem ddOf_push (rooted : Bool) (e : Str) (stack : List Str) (he : e ≠ dotdot) :
    ddOf rooted (e :: stack) = ddOf rooted stack := by
  unfold ddOf
  simp [List.filter_cons, he]

theorem head?_tail_form (tail : Str) (htail : tail = [] ∨ ∃ t, tail = Separator :: t) :
    tail = [] ∨ tail.head? = some Separator := by
  rcases htail with h | ⟨t, h⟩
  · exact Or.inl h
  · exact Or.inr (by simp [h])

/-- The loop on a real path element: a separator if the buffer holds an
element, then the copy of the element. -/
theorem cleanLoop_name (rooted : Bool) (e tail : Str) (stack : List Str)
    (he : validName e = true) (hstack : ∀ x ∈ stack, x ≠ [])
    (htail : tail = [] ∨ ∃ t, tail = Separator :: t) (dd : Nat) :
    cleanLoop rooted (e ++ tail) false (bufR rooted stack) dd =
      cleanLoop rooted tail.tail false (bufR rooted (e :: stack)) dd := by
  obtain ⟨hne, hsep, hdot, hdd⟩ := (validName_iff e).1 he
  have hslash := needSlash_iff rooted stack hstack
  have hout : (if ((rooted && (bufR rooted stack).length != 1) ||
        (!rooted && (bufR rooted stack).length != 0)) = true
      then Separator :: bufR rooted stack else bufR rooted stack) =
      (if stack = [] then bufR rooted stack else Separator :: bufR rooted stack) := by
    rw [hslash]
    by_cases hs : stack = [] <;> simp [hs]
  have htail2 : ∀ x, tail.head? = some x → x = Separator := by
    intro x hx
    rcases htail with h | ⟨t, h⟩
    · simp [h] at hx
    · simp [h] at hx; exact hx.symm
  cases e with
  | nil => exact absurd rfl hne
  | cons c cs =>
    have hc : c ≠ Separator := fun h => hsep (by simp [h])
    have hcs : ∀ x ∈ cs, x ≠ Separator := fun x hx h => hsep (by simp [← h, hx])
    have h2 : ¬ (c = '.' ∧ (cs ++ tail = [] ∨ (cs ++ tail).head? = some Separator)) := by
      rintro ⟨h, h4⟩
      cases cs with
      | nil => exact hdot (by rw [h])
      | cons c2 cs2 =>
        rcases h4 with h4 | h4
        · simp at h4
        · simp at h4
          exact hcs c2 (by simp) h4
    have h3 : ¬ (c = '.' ∧ ∃ rest2, cs ++ tail = '.' :: rest2 ∧
        (rest2 = [] ∨ rest2.head? = some Separator)) := by
      rintro ⟨h, rest2, h4, h5⟩
      cases cs with
      | nil =>
        have := htail2 '.' (by simp at h4; simp [h4])
        exact absurd this (by decide)
      | cons c2 cs2 =>
        simp only [List.cons_append, List.cons.injEq] at h4
        obtain ⟨rfl, rfl⟩ := h4
        have hcs2 : cs2 = [] := by
          cases cs2 with
          | nil => rfl
          | cons c3 cs3 =>
            rcases h5 with h5 | h5
            · simp at h5
            · simp at h5
              exact absurd h5 (hcs c3 (by simp))
        exact hdd (by rw [h, hcs2])
    rw [List.cons_append, cleanLoop_real rooted c (cs ++ tail) _ dd hc h2 h3, hout,
      cleanLoop_copy rooted tail dd htail cs _ hcs, bufR_push]
    simp

/-- The loop on one path element does to the buffer what `cleanStep` does
to the stack of elements. -/
theorem cleanLoop_elem (rooted : Bool) (e tail : Str) (stack : List Str)
    (he : Separator ∉ e) (hok : StackOK rooted stack)
    (htail : tail = [] ∨ ∃ t, tail = Separator :: t) :
    cleanLoop rooted (e ++ tail) false (bufR rooted stack) (ddOf rooted stack) =
      cleanLoop rooted tail.tail false (bufR rooted (cleanStep rooted stack e))
        (ddOf rooted (cleanStep rooted stack e)) := by
  have hform := head?_tail_form tail htail
  by_cases h1 : e = []
  · subst h1
    have : cleanStep rooted stack [] = stack := by simp [cleanStep]
    rw [this, List.nil_append]
    exact cleanLoop_sep rooted tail _ _ htail
  by_cases h2 : e = ['.']
  · subst h2
    have : cleanStep rooted stack ['.'] = stack := by simp [cleanStep]
    rw [this, List.singleton_append, cleanLoop_dot rooted tail _ _ hform]
    exact cleanLoop_sep rooted tail _ _ htail
  by_cases h3 : e = dotdot
  · subst h3
    have hstart : dotdot ++ tail = '.' :: '.' :: tail := rfl
    rw [hstart, cleanLoop_dotdot rooted tail _ _ hform]
    obtain ⟨k, names, rfl, hn, hk⟩ := hok
    have hcan := canBacktrack_iff rooted names k hn hk
    cases names with
    | cons top rest =>
      have htop : validName top = true := hn top (by simp)
      have htopdd : top ≠ dotdot := ((validName_iff top).1 htop).2.2.2
      have hbelow : StackOK rooted (rest ++ List.replicate k dotdot) :=
        ⟨k, rest, rfl, fun x hx => hn x (List.mem_cons_of_mem _ hx), hk⟩
      have hstep : cleanStep rooted (top :: rest ++ List.replicate k dotdot) dotdot =
          rest ++ List.replicate k dotdot := by
        simp [cleanStep, htopdd]
      have hgt : (bufR rooted (top :: rest ++ List.replicate k dotdot)).length >
          ddOf rooted (top :: rest ++ List.replicate k dotdot) := hcan.2 (by simp)
      rw [if_pos hgt, hstep]
      have hb := backtrack_bufR rooted top (rest ++ List.replicate k dotdot) htop hbelow
      rw [List.cons_append, hb, ddOf_push rooted top _ htopdd]
      exact cleanLoop_sep rooted tail _ _ htail
    | nil =>
      have hngt : ¬ ((bufR rooted ([] ++ List.replicate k dotdot)).length >
          ddOf rooted ([] ++ List.replicate k dotdot)) := fun h => (hcan.1 h) rfl
      rw [if_neg hngt]
      cases rooted with
      | true =>
        have hk0 : k = 0 := hk rfl
        subst hk0
        have hstep : cleanStep true ([] ++ List.replicate 0 dotdot) dotdot =
            [] ++ List.replicate 0 dotdot := by
          simp [cleanStep]
        rw [hstep]
        simp only [Bool.not_true, Bool.false_eq_true, if_false]
        exact cleanLoop_sep true tail _ _ htail
      | false =>
        simp only [Bool.not_false, if_true, List.nil_append]
        rw [cleanStep_dotdot_unrooted]
        have hlen : (bufR false (List.replicate k dotdot)).length > 0 ↔
            List.replicate k dotdot ≠ [] := by
          cases k with
          | zero => simp [bufR]
          | succ j => simp [List.replicate_succ, length_bufR_cons]
        have hbuf : ('.' :: '.' :: (if (bufR false (List.replicate k dotdot)).length > 0 then
            Separator :: bufR false (List.replicate k dotdot)
            else bufR false (List.replicate k dotdot))) =
            bufR false (List.replicate (k + 1) dotdot) := by
          rw [List.replicate_succ, bufR_push]
          by_cases hr : List.replicate k dotdot = []
          · have : ¬ ((bufR false (List.replicate k dotdot)).length > 0) := fun h => (hlen.1 h) hr
            simp [this, hr, bufR]
          · have : (bufR false (List.replicate k dotdot)).length > 0 := hlen.2 hr
            simp [this, hr]
        have hdd : ddOf false (List.replicate (k + 1) dotdot) =
            (bufR false (List.replicate (k + 1) dotdot)).length := by
          have := ddOf_stack false [] (k + 1) (by simp) (by simp)
          simpa using this
        rw [hbuf, hdd]
        exact cleanLoop_sep false tail _ _ htail
  · have hv : validName e = true := (validName_iff e).2 ⟨h1, he, h2, h3⟩
    rw [cleanStep_valid rooted stack e hv, ddOf_push rooted e stack h3]
    exact cleanLoop_name rooted e tail stack hv
      (fun x hx => (stackOK_elem rooted stack hok x hx).1) htail _

theorem joinSep_splitSep (p : Str) : joinSep (splitSep p) = p := by
  induction p with
  | nil => rfl
  | cons c cs ih =>
    have h1 := splitSep_ne_nil cs
    cases hs : splitSep cs with
    | nil => exact absurd hs h1
    | cons x xs =>
      rw [hs] at ih
      by_cases hc : c = Separator
      · simp [splitSep, hc, hs, joinSep, ih]
      · have : splitSep (c :: cs) = (c :: x) :: xs := by simp [splitSep, hc, hs]
        rw [this]
        cases xs with
        | nil => simpa [joinSep] using ih
        | cons y ys =>
          have h2 : joinSep (x :: y :: ys) = x ++ Separator :: joinSep (y :: ys) := rfl
          have h3 : joinSep ((c :: x) :: y :: ys) = (c :: x) ++ Separator :: joinSep (y :: ys) := rfl
          rw [h3, ← ih, h2]
          rfl

/-- The loop on a whole input does to the buffer what folding `cleanStep`
over the elements of the input does to the stack of elements. -/
theorem cleanLoop_joinSep (rooted : Bool) (elems : List Str) (h : ∀ e ∈ elems, Separator ∉ e) :
    ∀ stack, StackOK rooted stack →
      cleanLoop rooted (joinSep elems) false (bufR rooted stack) (ddOf rooted stack) =
        bufR rooted (elems.foldl (cleanStep rooted) stack) := by
  induction elems with
  | nil =>
    intro stack _
    simp [joinSep, cleanLoop_nil]
  | cons e rest ih =>
    intro stack hok
    have he : Separator ∉ e := h e (by simp)
    have hok2 := cleanStep_ok rooted stack e hok he
    have ih2 := ih (fun x hx => h x (List.mem_cons_of_mem _ hx)) _ hok2
    cases rest with
    | nil =>
      have := cleanLoop_elem rooted e [] stack he hok (Or.inl rfl)
      simp only [List.append_nil, List.tail_nil, cleanLoop_nil] at this
      simpa [joinSep] using this
    | cons e2 rest2 =>
      have hj : joinSep (e :: e2 :: rest2) = e ++ Separator :: joinSep (e2 :: rest2) := rfl
      have := cleanLoop_elem rooted e (Separator :: joinSep (e2 :: rest2)) stack he hok
        (Or.inr ⟨_, rfl⟩)
      rw [hj, this, List.tail_cons, ih2]
      rfl

theorem bufR_eq_nil_iff (rooted : Bool) (stack : List Str) (h : ∀ e ∈ stack, e ≠ []) :
    (bufR rooted stack).length = 0 ↔ rooted = false ∧ stack = [] := by
  cases stack with
  | nil => cases rooted <;> simp [bufR]
  | cons e below =>
    have hl : 0 < e.length := List.length_pos.mpr (h e (by simp))
    rw [length_bufR_cons]
    constructor
    · intro h0
      omega
    · rintro ⟨-, h2⟩
      simp at h2

/-- The result of `filepath.Clean` is the string of the elements that folding
`cleanStep` over the elements of the input keeps. -/
theorem Clean_eq (path : Str) :
    Clean path = render (isRooted path) (cleanOut path).reverse := by
  cases path with
  | nil => decide
  | cons c t =>
    by_cases hc : c = Separator
    · subst hc
      have hroot : isRooted (Separator :: t) = true := by simp [isRooted]
      have hout : cleanOut (Separator :: t) = (splitSep t).foldl (cleanStep true) [] := by
        unfold cleanOut
        rw [hroot]
        simp [splitSep, cleanStep]
      have hloop := cleanLoop_joinSep true (splitSep t) (mem_splitSep_not_sep t) []
        (stackOK_nil true)
      rw [joinSep_splitSep] at hloop
      have hb : bufR true [] = [Separator] := by simp [bufR]
      have hd : ddOf true [] = 1 := rfl
      rw [hb, hd] at hloop
      have hlen : (bufR true ((splitSep t).foldl (cleanStep true) [])).length ≠ 0 := by
        intro h0
        have hok := foldl_cleanStep_ok true (splitSep t) (mem_splitSep_not_sep t) []
          (stackOK_nil true)
        have := (bufR_eq_nil_iff true _ (fun e he => (stackOK_elem true _ hok e he).1)).1 h0
        simp at this
      unfold Clean
      simp only [List.cons_ne_nil, if_false, List.head?_cons, decide_True, if_true,
        List.tail_cons, hloop, hlen, hroot, hout]
      rw [reverse_bufR]
      simp [render]
    · have hroot : isRooted (c :: t) = false := by simp [isRooted, hc]
      have hok := cleanOut_ok (c :: t)
      rw [hroot] at hok
      have hloop := cleanLoop_joinSep false (splitSep (c :: t)) (mem_splitSep_not_sep _) []
        (stackOK_nil false)
      rw [joinSep_splitSep] at hloop
      have hb : bufR false [] = [] := by simp [bufR]
      have hd : ddOf false [] = 0 := by simp [ddOf, bufR]
      rw [hb, hd] at hloop
      have hout : (splitSep (c :: t)).foldl (cleanStep false) [] = cleanOut (c :: t) := by
        unfold cleanOut
        rw [hroot]
      rw [hout] at hloop
      have hnil := bufR_eq_nil_iff false (cleanOut (c :: t))
        (fun e he => (stackOK_elem false _ hok e he).1)
      have hhead : ¬ (some c = some Separator) := fun h => hc (Option.some.inj h)
      unfold Clean
      simp only [List.cons_ne_nil, if_false, List.head?_cons, hhead, decide_False,
        Bool.false_eq_true, hloop, hroot]
      by_cases hs : cleanOut (c :: t) = []
      · have h0 : (bufR false (cleanOut (c :: t))).length = 0 := hnil.2 ⟨rfl, hs⟩
        simp [h0, hs, render, hb]
      · have h0 : (bufR false (cleanOut (c :: t))).length ≠ 0 := fun h => hs (hnil.1 h).2
        rw [if_neg h0, reverse_bufR]
        simp [render, hs]

/-- The result of `filepath.Clean` is the clean path with the buffer of the
loop. -/
theorem isClean_Clean (path : Str) : IsClean (Clean path) (isRooted path) (cleanOut path) :=
  ⟨cleanOut_ok path, Clean_eq path⟩

theorem splitSep_joinSep (l : List Str) (hl : l ≠ []) (h : ∀ e ∈ l, Separator ∉ e) :
    splitSep (joinSep l) = l := by
  induction l with
  | nil => exact absurd rfl hl
  | cons a rest ih =>
    cases rest with
    | nil => simpa [joinSep] using splitSep_of_not_mem a (h a (by simp))
    | cons b rest2 =>
      have h1 : joinSep (a :: b :: rest2) = a ++ Separator :: joinSep (b :: rest2) := rfl
      rw [h1, splitSep_append, splitSep_of_not_mem a (h a (by simp)),
        ih (by simp) (fun x hx => h x (List.mem_cons_of_mem _ hx))]
      rfl

theorem head?_joinSep (e : Str) (rest : List Str) (he : e ≠ []) :
    (joinSep (e :: rest)).head? = e.head? := by
  cases e with
  | nil => exact absurd rfl he
  | cons c cs => cases rest <;> simp [joinSep]

theorem isRooted_render (rooted : Bool) (l : List Str) (h : ∀ e ∈ l, e ≠ [] ∧ Separator ∉ e) :
    isRooted (render rooted l) = rooted := by
  cases rooted with
  | true => simp [render, isRooted]
  | false =>
    cases l with
    | nil => decide
    | cons e rest =>
      obtain ⟨h1, h2⟩ := h e (by simp)
      have hr : render false (e :: rest) = joinSep (e :: rest) := by simp [render]
      rw [hr]
      unfold isRooted
      rw [head?_joinSep e rest h1]
      cases e with
      | nil => exact absurd rfl h1
      | cons c cs =>
        have hc : c ≠ Separator := fun hc => h2 (by simp [hc])
        simp [hc]

/-- The elements of a rendered buffer, as `filepath.Clean` splits them. -/
theorem splitSep_render (rooted : Bool) (l : List Str) (h : ∀ e ∈ l, e ≠ [] ∧ Separator ∉ e) :
    ∃ pre, splitSep (render rooted l) = pre ++ l ∧
      ∀ out, pre.foldl (cleanStep rooted) out = out := by
  cases rooted with
  | true =>
    cases l with
    | nil => exact ⟨[[], []], by simp [render, joinSep, splitSep], by simp [cleanStep]⟩
    | cons e rest =>
      refine ⟨[[]], ?_, by simp [cleanStep]⟩
      have : render true (e :: rest) = Separator :: joinSep (e :: rest) := by simp [render]
      rw [this]
      have h2 := splitSep_joinSep (e :: rest) (by simp) (fun x hx => (h x hx).2)
      simp [splitSep, h2]
  | false =>
    cases l with
    | nil => exact ⟨[['.']], by decide, by simp [cleanStep]⟩
    | cons e rest =>
      refine ⟨[], ?_, by simp⟩
      have : render false (e :: rest) = joinSep (e :: rest) := by simp [render]
      rw [this, splitSep_joinSep (e :: rest) (by simp) (fun x hx => (h x hx).2)]
      rfl

theorem foldl_cleanStep_reverse (rooted : Bool) (out : List Str) (h : StackOK rooted out) :
    out.reverse.foldl (cleanStep rooted) [] = out := by
  obtain ⟨k, names, rfl, hn, hk⟩ := h
  rw [List.reverse_append, List.reverse_replicate, List.foldl_append]
  have h1 : (List.replicate k dotdot).foldl (cleanStep rooted) [] = List.replicate k dotdot := by
    cases rooted with
    | true =>
      have : k = 0 := hk rfl
      subst this
      rfl
    | false =>
      have := foldl_cleanStep_dotdots k 0
      simpa using this
  rw [h1, foldl_cleanStep_valid rooted names.reverse (fun e he => hn e (by simpa using he))]
  simp

/-- Cleaning a rendered buffer gives the buffer back. -/
theorem cleanOut_render (rooted : Bool) (out : List Str) (h : StackOK rooted out) :
    cleanOut (render rooted out.reverse) = out := by
  have helem : ∀ e ∈ out.reverse, e ≠ [] ∧ Separator ∉ e := fun e he =>
    stackOK_elem rooted out h e (by simpa using he)
  obtain ⟨pre, hsplit, hpre⟩ := splitSep_render rooted out.reverse helem
  unfold cleanOut
  rw [isRooted_render rooted _ helem, hsplit, List.foldl_append, hpre,
    foldl_cleanStep_reverse rooted out h]

theorem Clean_of_isClean (q : Str) (rooted : Bool) (out : List Str) (h : IsClean q rooted out) :
    Clean q = q ∧ isRooted q = rooted ∧ cleanOut q = out := by
  obtain ⟨hok, rfl⟩ := h
  have helem : ∀ e ∈ out.reverse, e ≠ [] ∧ Separator ∉ e := fun e he =>
    stackOK_elem rooted out hok e (by simpa using he)
  have h1 := isRooted_render rooted _ helem
  have h2 := cleanOut_render rooted out hok
  refine ⟨?_, h1, h2⟩
  rw [Clean_eq, h1, h2]

/-- The function `filepath.Clean` is idempotent: its result is lexically
clean. -/
theorem Clean_idem (path : Str) : Clean (Clean path) = Clean path :=
  (Clean_of_isClean _ _ _ (isClean_Clean path)).1

/-- A lexically clean path is the clean path with its own buffer. -/
theorem isClean_of_Clean_eq (q : Str) (h : Clean q = q) : IsClean q (isRooted q) (cleanOut q) := by
  have := isClean_Clean q
  rwa [h] at this

/-! ## Path resolution -/

/-- C9 as stated fails: a path that does not begin with `~` is returned as it
is, not cleaned, so the result need not be lexically clean. -/
theorem resolveTildePath_not_cleaned :
    ¬ (resolveTildePath (some "/home/u".toList) "/srv//repos/".toList =
        some (Clean "/srv//repos/".toList)) ∧
    ¬ (Clean (resolveTildePathIn "/home/u".toList "/srv//repos/".toList) =
        resolveTildePathIn "/home/u".toList "/srv//repos/".toList) := by
  decide

/-- C9, amended: with a home directory `h`, for a path that begins with `~`
the result is the lexically cleaned join of `h` with the remainder of the
path, and it is lexically clean; a path that does not begin with `~` is
returned unchanged. -/
theorem resolveTildePath_spec (h p : Str) :
    (['~'].isPrefixOf p = true →
      resolveTildePath (some h) p = some (Clean (Join [h, p.drop 1])) ∧
      Clean (resolveTildePathIn h p) = resolveTildePathIn h p) ∧
    (['~'].isPrefixOf p = false → resolveTildePath (some h) p = some p) := by
  constructor
  · intro ht
    have h1 : resolveTildePath (some h) p = some (Clean (Join [h, p.drop 1])) := by
      simp [resolveTildePath, ht]
    refine ⟨h1, ?_⟩
    unfold resolveTildePathIn
    rw [h1]
    exact Clean_idem _
  · intro ht
    simp [resolveTildePath, ht]

/-- C9, amended, for `~/code//app/` and for `/srv//repos/`. -/
theorem resolveTildePath_spec_witness :
    (resolveTildePath (some "/home/u".toList) "~/code//app/".toList =
        some (Clean (Join ["/home/u".toList, "/code//app/".toList])) ∧
      Clean (resolveTildePathIn "/home/u".toList "~/code//app/".toList) =
        resolveTildePathIn "/home/u".toList "~/code//app/".toList) ∧
    resolveTildePath (some "/home/u".toList) "/srv//repos/".toList =
      some "/srv//repos/".toList :=
  ⟨(resolveTildePath_spec "/home/u".toList "~/code//app/".toList).1 (by decide),
   (resolveTildePath_spec "/home/u".toList "/srv//repos/".toList).2 (by decide)⟩

/-! ## Depth of the emitted paths -/

theorem isRooted_of_validName (n : Str) (h : validName n = true) : isRooted n = false := by
  obtain ⟨h1, h2, -, -⟩ := (validName_iff n).1 h
  cases n with
  | nil => exact absurd rfl h1
  | cons c cs =>
    have hc : c ≠ Separator := fun hc => h2 (by simp [hc])
    simp [isRooted, hc]

theorem cleanOut_nil : cleanOut [] = [] := by decide

theorem cleanOut_append_elem (r n : Str) (hr : r ≠ []) (hn : validName n = true) :
    isRooted (r ++ Separator :: n) = isRooted r ∧
    cleanOut (r ++ Separator :: n) = n :: cleanOut r := by
  have h1 : isRooted (r ++ Separator :: n) = isRooted r := by
    cases r with
    | nil => exact absurd rfl hr
    | cons c cs => simp [isRooted]
  refine ⟨h1, ?_⟩
  obtain ⟨-, h2, -, -⟩ := (validName_iff n).1 hn
  unfold cleanOut
  rw [h1, splitSep_append, splitSep_of_not_mem n h2, List.foldl_append]
  simp [cleanStep_valid _ _ n hn]

/-- The path of an entry, as the walk computes it with `filepath.Join`: the
clean path whose buffer is that of the directory with the name on top. -/
theorem isClean_Join (r n : Str) (hn : validName n = true) :
    IsClean (Join [r, n]) (isRooted r) (n :: cleanOut r) := by
  obtain ⟨hne, hsep, -, -⟩ := (validName_iff n).1 hn
  by_cases hr : r = []
  · subst hr
    have hj : Join [[], n] = Clean n := by
      simp [Join, List.dropWhile, hne, joinSep]
    have h1 : isRooted ([] : Str) = false := by decide
    have h2 : cleanOut n = [n] := by
      unfold cleanOut
      rw [splitSep_of_not_mem n hsep]
      simp [cleanStep_valid _ _ n hn]
    have := isClean_Clean n
    rw [isRooted_of_validName n hn, h2] at this
    rw [hj, h1, cleanOut_nil]
    exact this
  · have hj : Join [r, n] = Clean (r ++ Separator :: n) := by
      simp [Join, List.dropWhile, hr, joinSep]
    obtain ⟨h1, h2⟩ := cleanOut_append_elem r n hr hn
    have := isClean_Clean (r ++ Separator :: n)
    rw [h1, h2] at this
    rw [hj]
    exact this

theorem count_append (a b : Str) (c : Char) : Count (a ++ b) c = Count a c + Count b c := by
  simp [Count, List.count_append]

theorem count_of_not_mem (e : Str) (h : Separator ∉ e) : Count e Separator = 0 := by
  simp [Count, List.count_eq_zero, h]

theorem count_joinSep (l : List Str) (h : ∀ e ∈ l, Separator ∉ e) :
    Count (joinSep l) Separator = l.length - 1 := by
  induction l with
  | nil => rfl
  | cons a rest ih =>
    cases rest with
    | nil => simpa [joinSep] using count_of_not_mem a (h a (by simp))
    | cons b rest2 =>
      have h1 : joinSep (a :: b :: rest2) = a ++ Separator :: joinSep (b :: rest2) := rfl
      have h2 := ih (fun x hx => h x (List.mem_cons_of_mem _ hx))
      have h3 : Count (Separator :: joinSep (b :: rest2)) Separator =
          Count (joinSep (b :: rest2)) Separator + 1 := by
        simp [Count]
      rw [h1, count_append, count_of_not_mem a (h a (by simp)), h3, h2]
      simp

/-- The number of separators of a clean path, from its buffer. -/
theorem count_isClean (q : Str) (rooted : Bool) (out : List Str) (h : IsClean q rooted out) :
    Count q Separator = (if rooted then 1 else 0) + (out.length - 1) := by
  obtain ⟨hok, rfl⟩ := h
  have helem : ∀ e ∈ out.reverse, Separator ∉ e := fun e he =>
    (stackOK_elem rooted out hok e (by simpa using he)).2
  have hc := count_joinSep out.reverse helem
  rw [List.length_reverse] at hc
  cases rooted with
  | true =>
    have : Count (Separator :: joinSep out.reverse) Separator =
        Count (joinSep out.reverse) Separator + 1 := by
      simp [Count]
    simp only [render, if_true, this, hc]
    omega
  | false =>
    by_cases ho : out.reverse = []
    · have : out = [] := by simpa using ho
      subst this
      decide
    · simp [render, ho, hc]

theorem validNamesList_mem (es : List (Str × Node)) (h : validNamesList es = true)
    (name : Str) (d1 : Node) (hmem : (name, d1) ∈ es) :
    validName name = true ∧ d1.validNames = true := by
  induction es with
  | nil => simp at hmem
  | cons e rest ih =>
    obtain ⟨n2, d2⟩ := e
    simp only [validNamesList, Bool.and_eq_true] at h
    rcases List.mem_cons.mp hmem with heq | hm
    · obtain ⟨rfl, rfl⟩ := Prod.mk.inj heq
      exact ⟨h.1.1, h.1.2⟩
    · exact ih h.2 hm

theorem dirsAtLevel_entry (path : Str) (g : Option Bool) (r : Bool) (es : List (Str × Node))
    (name : Str) (d1 : Node) (hmem : (name, d1) ∈ es) (q : Str) (j : Nat)
    (hq : q ∈ dirsAtLevel (Join [path, name]) d1 j) :
    q ∈ dirsAtLevel path (.dir g r es) (j + 1) := by
  simp only [dirsAtLevel, List.mem_flatMap]
  exact ⟨(name, d1), hmem, hq⟩

/-- A directory that the walk reaches from a clean path lies some number of
levels below it, and its clean path has that many more elements. -/
theorem level_of_reached (rootDepth depth : Int) (path : Str) (n : Node) (q : Str) (m : Node)
    (h : Reached rootDepth depth path n q m) :
    ∀ rooted out, IsClean path rooted out → n.validNames = true → m.isDir = true →
      ∃ (j : Nat) (out2 : List Str), IsClean q rooted out2 ∧ out2.length = out.length + j ∧
        q ∈ dirsAtLevel path n j := by
  induction h with
  | here path n =>
    intro rooted out hc _ hm
    exact ⟨0, out, hc, rfl, by simp [dirsAtLevel, hm]⟩
  | entry path g r es name d1 q m _ hmem _ ih =>
    intro rooted out hc hv hm
    have hv2 : validNamesList es = true := by simpa [Node.validNames] using hv
    obtain ⟨hname, hd1⟩ := validNamesList_mem es hv2 name d1 hmem
    obtain ⟨-, hroot, hout⟩ := Clean_of_isClean path rooted out hc
    have hchild := isClean_Join path name hname
    rw [hroot, hout] at hchild
    obtain ⟨j, out2, hc2, hlen, hq⟩ := ih rooted (name :: out) hchild hd1 hm
    refine ⟨j + 1, out2, hc2, ?_, dirsAtLevel_entry path g r es name d1 hmem q j hq⟩
    rw [hlen, List.length_cons]
    omega

/-- C4 as stated fails: for the root `/x//y/` and depth 1 the directory
`/x/y/a/b`, two levels below the root, is emitted; the root string has four
separators, the visited path `/x/y/a/b` has four also. -/
theorem unclean_root_exceeds_depth :
    ¬ (∀ q ∈ emitted (findRepos "/x//y/".toList 1 (some deepTree)).1,
        ∃ k : Nat, (k : Int) ≤ 1 ∧ q ∈ dirsAtLevel "/x//y/".toList deepTree k) := by
  intro h
  obtain ⟨k, hk, hq⟩ := h "/x/y/a/b".toList (by decide)
  have hk2 : k = 0 ∨ k = 1 := by omega
  rcases hk2 with rfl | rfl
  · revert hq; decide
  · revert hq; decide

/-- C4, amended: for every lexically clean root (`/` and `.` included),
every depth and every directory tree with the entry names a directory can
hold, every path that `findRepos` sends is a directory lying at most `depth`
levels below the root.  The depth the code compares with the limit is the
number of separators of the visited path minus that of the root string: a
directory for which this is at least `depth` is skipped. -/
theorem emitted_within_depth (root : Str) (depth : Int) (n : Node)
    (hclean : Clean root = root) (hnames : n.validNames = true) :
    (∀ q ∈ emitted (findRepos root depth (some n)).1,
      ∃ k : Nat, (k : Int) ≤ depth ∧ q ∈ dirsAtLevel root n k) ∧
    (∀ path g r es, depth ≤ (Count path Separator : Int) - (Count root Separator : Int) →
      findReposFn (Count root Separator) depth path (some (.dir g r es)) false =
        ([], some .skipDir)) := by
  refine ⟨?_, fun path g r es h => findReposFn_skip _ _ _ _ _ _ h⟩
  intro q hq
  rw [findRepos_some] at hq
  obtain ⟨r, es, hreach, hdepth⟩ := (mem_emitted_walkDir _ _ _ _ _).1 hq
  have hroot := isClean_of_Clean_eq root hclean
  obtain ⟨j, out2, hc2, hlen, hmem⟩ :=
    level_of_reached _ _ _ _ _ _ hreach _ _ hroot hnames rfl
  have h1 := count_isClean q _ _ hc2
  have h2 := count_isClean root _ _ hroot
  refine ⟨j, ?_, hmem⟩
  rw [h1, h2, hlen] at hdepth
  cases hb : isRooted root <;> simp only [hb, if_true, if_false] at hdepth <;>
    push_cast at hdepth <;> omega

/-- C4, amended, for the clean root `/` with depth 2: the repository `/a/b`
is emitted and lies two levels below the root. -/
theorem emitted_within_depth_witness :
    ∃ k : Nat, (k : Int) ≤ 2 ∧ "/a/b".toList ∈ dirsAtLevel "/".toList deepTree k :=
  (emitted_within_depth "/".toList 2 deepTree (by decide) (by decide)).1
    "/a/b".toList (by decide)

/-! ## Errors during the walk -/

/-- A repository that lies `k` levels below a directory of a clean root, with
all levels on the way and its own below the depth limit, is emitted. -/
theorem mem_walkDir_of_level (root : Str) (depth : Int) (hclean : Clean root = root) (q : Str) :
    ∀ (k : Nat) (path : Str) (n : Node) (out : List Str) (j : Nat),
      IsClean path (isRooted root) out → out.length = (cleanOut root).length + j →
      n.validNames = true → ((j : Int) + (k : Int) < depth) →
      q ∈ reposAtLevel path n k →
      q ∈ emitted (walkDir (findReposFn (Count root Separator) depth) path n).1 := by
  have hroot := isClean_of_Clean_eq root hclean
  have hcr := count_isClean root _ _ hroot
  intro k
  induction k with
  | zero =>
    intro path n out j hc hlen _ hd hq
    have hcp := count_isClean path _ _ hc
    have hdepth : (Count path Separator : Int) - (Count root Separator : Int) < depth := by
      have e1 := hcp
      have e2 := hcr
      rw [hlen] at e1
      cases hb : isRooted root <;> simp only [hb, if_true, if_false] at e1 e2 <;> omega
    cases n with
    | other => simp [reposAtLevel] at hq
    | dir g r es =>
      by_cases hg : g = some true
      · simp only [reposAtLevel, hg, if_true, List.mem_singleton] at hq
        subst hq
        subst hg
        exact (mem_emitted_walkDir _ _ _ _ _).2 ⟨r, es, Reached.here _ _, hdepth⟩
      · simp [reposAtLevel, hg] at hq
  | succ k ih =>
    intro path n out j hc hlen hv hd hq
    have hcp := count_isClean path _ _ hc
    have hdepth : (Count path Separator : Int) - (Count root Separator : Int) < depth := by
      have e1 := hcp
      have e2 := hcr
      rw [hlen] at e1
      cases hb : isRooted root <;> simp only [hb, if_true, if_false] at e1 e2 <;> omega
    cases n with
    | other => simp [reposAtLevel] at hq
    | dir g r es =>
      simp only [reposAtLevel, List.mem_flatMap] at hq
      obtain ⟨⟨name, d1⟩, hmem, hq2⟩ := hq
      have hv2 : validNamesList es = true := by simpa [Node.validNames] using hv
      obtain ⟨hname, hd1⟩ := validNamesList_mem es hv2 name d1 hmem
      obtain ⟨-, hrt, hout⟩ := Clean_of_isClean path _ out hc
      have hchild := isClean_Join path name hname
      rw [hrt, hout] at hchild
      have hrec := ih (Join [path, name]) d1 (name :: out) (j + 1) hchild
        (by rw [List.length_cons, hlen]; omega) hd1 (by push_cast at hd ⊢; omega) hq2
      obtain ⟨r2, es2, hreach, hqd⟩ := (mem_emitted_walkDir _ _ _ _ _).1 hrec
      exact (mem_emitted_walkDir _ _ _ _ _).2
        ⟨r2, es2, Reached.entry path g r es name d1 q _ hdepth hmem hreach, hqd⟩

/-- C10 as stated fails at the depth limit: for the root `/srv` and depth 1
the repository `/srv/proj`, one level below the root and next to the failing
entries, is not emitted. -/
theorem sibling_at_depth_limit_not_emitted :
    ¬ ((findRepos "/srv".toList 1 (some faultyTree)).2 = none ∧
       ∀ k : Nat, (k : Int) ≤ 1 → ∀ q ∈ reposAtLevel "/srv".toList faultyTree k,
         q ∈ emitted (findRepos "/srv".toList 1 (some faultyTree)).1) := by
  rintro ⟨-, h⟩
  have h1 := h 1 (by decide) "/srv/proj".toList (by decide)
  revert h1
  decide

/-- C10, amended: `findRepos` returns a nil error for every root, depth and
tree, also when `os.Lstat` of the root fails or the root is no directory; and
whatever fails elsewhere (a directory that cannot be read completely, a
`.git` that cannot be examined), every directory that the walk reaches
through the entries that were read, that passes the depth check of the code
(the separators of its path exceed those of the root string by less than the
depth), and whose `.git` entry is a directory, is emitted; for a lexically
clean root these are at least the repositories fewer than `depth` levels
below the root. -/
theorem findRepos_swallows_errors (root : Str) (depth : Int) (info : Option Node) :
    (findRepos root depth info).2 = none ∧
    (∀ n, info = some n → ∀ q r es,
      Reached (Count root Separator) depth root n q (.dir (some true) r es) →
      (Count q Separator : Int) - (Count root Separator : Int) < depth →
      q ∈ emitted (findRepos root depth info).1) ∧
    (Clean root = root → ∀ n, info = some n → n.validNames = true →
      ∀ k : Nat, (k : Int) < depth → ∀ q ∈ reposAtLevel root n k,
        q ∈ emitted (findRepos root depth info).1) := by
  refine ⟨?_, ?_, ?_⟩
  · cases info with
    | none => rw [findRepos_none]
    | some n => rw [findRepos_some]
  · intro n hn q r es hr hq
    subst hn
    rw [findRepos_some]
    exact (mem_emitted_walkDir _ _ _ _ _).2 ⟨r, es, hr, hq⟩
  · intro hclean n hn hv k hk q hq
    subst hn
    rw [findRepos_some]
    exact mem_walkDir_of_level root depth hclean q k root n (cleanOut root) 0
      (isClean_of_Clean_eq root hclean) rfl hv (by push_cast; omega) hq

/-- C10, amended, in a directory that cannot be read completely, next to a
directory that can be neither examined nor read and next to a file: with
depth 2 the repository `proj`, one level down, is emitted, and the error is
nil, as it is for a root that does not exist and for a root that is a
file. -/
theorem findRepos_swallows_errors_witness :
    (findRepos "/srv".toList 2 (some faultyTree)).2 = none ∧
    "/srv/proj".toList ∈ emitted (findRepos "/srv".toList 2 (some faultyTree)).1 ∧
    (∀ q ∈ reposAtLevel "/srv".toList faultyTree 1,
      q ∈ emitted (findRepos "/srv".toList 2 (some faultyTree)).1) ∧
    (findRepos "/missing".toList 2 none).2 = none ∧
    (findRepos "/etc/passwd".toList 2 (some .other)).2 = none :=
  ⟨(findRepos_swallows_errors "/srv".toList 2 (some faultyTree)).1,
   (findRepos_swallows_errors "/srv".toList 2 (some faultyTree)).2.1 faultyTree rfl
      "/srv/proj".toList false [(".git".toList, mkDir [])]
      (Reached.entry _ _ _ _ "proj".toList repoTree _ _ (by decide)
        (List.mem_cons_of_mem _ (List.mem_cons_of_mem _ (List.mem_cons_self _ _)))
        (Reached.here _ _))
      (by decide),
   (findRepos_swallows_errors "/srv".toList 2 (some faultyTree)).2.2 (by decide) faultyTree rfl
      (by decide) 1 (by decide),
   (findRepos_swallows_errors "/missing".toList 2 none).1,
   (findRepos_swallows_errors "/etc/passwd".toList 2 (some .other)).1⟩

/-! ## The feeder -/

theorem lines_cons (l : Str) (ls : List Str) : lines (l :: ls) = l ++ [newline] ++ lines ls := by
  simp [lines]

theorem lines_append (a b : List Str) : lines (a ++ b) = lines a ++ lines b := by
  simp [lines]

theorem splitLines_append_newline (l : Str) (t : List Char) (h : newline ∉ l) :
    splitLines (l ++ newline :: t) = l :: splitLines t := by
  induction l with
  | nil => simp [splitLines]
  | cons c cs ih =>
    have hc : c ≠ newline := fun hc => h (by simp [hc])
    have hcs : newline ∉ cs := fun hm => h (List.mem_cons_of_mem _ hm)
    simp [splitLines, hc, ih hcs]

/-- Lines without newline in them are the lines of their bytes: one candidate
on each line. -/
theorem splitLines_lines (ls : List Str) (h : ∀ l ∈ ls, newline ∉ l) :
    splitLines (lines ls) = ls ++ [[]] := by
  induction ls with
  | nil => rfl
  | cons l rest ih =>
    have h1 : lines (l :: rest) = l ++ newline :: lines rest := by simp [lines]
    rw [h1, splitLines_append_newline l _ (h l (by simp)),
      ih (fun x hx => h x (List.mem_cons_of_mem _ hx))]
    rfl

theorem feederInv_init (homeDir : Str) (lstat : Str → Option Node) (cfg : Config) :
    FeederInv homeDir lstat cfg (Feeder.init cfg) := by
  refine ⟨?_, by simp [Feeder.init], by simp [Feeder.init], ⟨[], by simp [Feeder.init]⟩⟩
  simp only [Feeder.init, linesLeft, candidates, List.nil_append, List.append_nil]
  rfl

/-- Every move keeps the invariant of the feeder. -/
theorem feederInv_step (homeDir : Str) (lstat : Str → Option Node) (cfg : Config)
    (a : Action) (s s2 : Feeder) (h : FeederInv homeDir lstat cfg s)
    (hs : step homeDir lstat a s = some s2) : FeederInv homeDir lstat cfg s2 := by
  obtain ⟨dirs, scans, pending, chanClosed, line, offered, pipe, pipeClosed, gone⟩ := s
  obtain ⟨h1, h2, h3, lost, h4, h5⟩ := h
  simp only at h1 h2 h3 h4 h5
  cases a with
  | writeDir =>
    by_cases hl : line = []
    · subst hl
      cases dirs with
      | nil => simp [step] at hs
      | cons d rest =>
        simp only [step, if_true, resolveTildePath_some, Option.map_some',
          Option.some.injEq] at hs
        subst hs
        refine ⟨?_, h2, ?_, ⟨lost, ?_, h5⟩⟩
        · rw [← h1]
          simp [linesLeft, lines_cons, lines_append]
        · intro hp
          have := (h3 hp).1
          simp at this
        · simp only [List.append_nil] at h4
          simp [← h4]
    · simp [step, hl] at hs
  | nextScan =>
    by_cases hp : pending = []
    · subst hp
      cases scans with
      | nil => simp [step] at hs
      | cons sd rest =>
        simp only [step, if_true, resolveTildePath_some, Option.map_some',
          Option.some.injEq] at hs
        subst hs
        refine ⟨?_, ?_, ?_, ⟨lost, h4, h5⟩⟩
        · rw [← h1]
          simp [linesLeft, scanSends, lines_append]
        · intro hc
          have := (h2 hc).1
          simp at this
        · intro hp
          have := (h3 hp).2.1
          have := (h2 this).1
          simp at this
    · simp [step, hp] at hs
  | transfer =>
    cases pending with
    | nil =>
      by_cases hg : line = [] ∧ dirs = [] ∧ pipeClosed = false <;> simp [step, hg] at hs
    | cons r rest =>
      by_cases hg : line = [] ∧ dirs = [] ∧ pipeClosed = false
      · simp only [step, hg, and_self, if_true, Option.some.injEq] at hs
        subst hs
        obtain ⟨rfl, rfl, rfl⟩ := hg
        refine ⟨?_, ?_, by simp, ⟨lost, ?_, h5⟩⟩
        · rw [← h1]
          simp [linesLeft, lines_cons, lines_append]
        · intro hc
          have := (h2 hc).2
          simp at this
        · simp only [List.append_nil] at h4
          simp [← h4]
      · simp [step, hg] at hs
  | writeByte =>
    cases line with
    | nil => simp [step] at hs
    | cons c rest =>
      simp only [step, Option.some.injEq] at hs
      subst hs
      have hpc : pipeClosed = false := by
        cases hpc : pipeClosed with
        | false => rfl
        | true =>
          have := (h3 hpc).2.2
          simp at this
      refine ⟨h1, h2, ?_, ?_⟩
      · intro hp
        simp [hpc] at hp
      · cases gone with
        | true =>
          refine ⟨lost ++ [c], ?_, by simp⟩
          simp [← h4]
        | false =>
          have hlost : lost = [] := h5 rfl
          subst hlost
          refine ⟨[], ?_, fun _ => rfl⟩
          simp [← h4]
  | closeChan =>
    by_cases hg : scans = [] ∧ pending = [] ∧ chanClosed = false
    · simp only [step, hg, and_self, if_true, Option.some.injEq] at hs
      subst hs
      obtain ⟨rfl, rfl, rfl⟩ := hg
      refine ⟨h1, by simp, ?_, ⟨lost, h4, h5⟩⟩
      intro hp
      have := (h3 hp).2.1
      simp at this
    · simp [step, hg] at hs
  | closePipe =>
    by_cases hg : line = [] ∧ dirs = [] ∧ chanClosed = true ∧ pipeClosed = false
    · simp only [step, hg, and_self, if_true, Option.some.injEq] at hs
      subst hs
      obtain ⟨rfl, rfl, rfl, rfl⟩ := hg
      exact ⟨h1, h2, by simp, ⟨lost, h4, h5⟩⟩
    · simp [step, hg] at hs
  | selectorExit =>
    by_cases hg : gone = false
    · simp only [step, hg, if_true, Option.some.injEq] at hs
      subst hs
      exact ⟨h1, h2, h3, ⟨lost, h4, by simp⟩⟩
    · simp [step, hg] at hs

theorem feederInv_run (homeDir : Str) (lstat : Str → Option Node) (cfg : Config)
    (acts : List Action) : ∀ s s2 : Feeder, FeederInv homeDir lstat cfg s →
      run homeDir lstat acts s = some s2 → FeederInv homeDir lstat cfg s2 := by
  induction acts with
  | nil =>
    intro s s2 h hr
    simp only [run, Option.some.injEq] at hr
    subst hr
    exact h
  | cons a rest ih =>
    intro s s2 h hr
    simp only [run] at hr
    cases hs : step homeDir lstat a s with
    | none => simp [hs] at hr
    | some s1 =>
      rw [hs] at hr
      exact ih s1 s2 (feederInv_step homeDir lstat cfg a s s1 h hs) hr

/-- After the pipe is closed no move of the goroutines is possible; the exit
of the selector changes no byte. -/
theorem step_closed (homeDir : Str) (lstat : Str → Option Node) (cfg : Config)
    (a : Action) (s s2 : Feeder) (h : FeederInv homeDir lstat cfg s)
    (hc : s.pipeClosed = true) (hs : step homeDir lstat a s = some s2) :
    s2.pipe = s.pipe ∧ s2.offered = s.offered := by
  obtain ⟨dirs, scans, pending, chanClosed, line, offered, pipe, pipeClosed, gone⟩ := s
  obtain ⟨-, h2, h3, -⟩ := h
  simp only at h2 h3 hc
  obtain ⟨rfl, rfl, rfl⟩ := h3 hc
  obtain ⟨rfl, rfl⟩ := h2 rfl
  subst hc
  cases a with
  | selectorExit =>
    by_cases hg : gone = false
    · simp only [step, hg, if_true, Option.some.injEq] at hs
      subst hs
      exact ⟨rfl, rfl⟩
    · simp [step, hg] at hs
  | writeDir => simp [step] at hs
  | nextScan => simp [step] at hs
  | transfer => simp [step] at hs
  | writeByte => simp [step] at hs
  | closeChan => simp [step] at hs
  | closePipe => simp [step] at hs

/-- While the pipe is open some move of the goroutines is possible, and it
takes them one move nearer to their end. -/
theorem step_progress (homeDir : Str) (lstat : Str → Option Node) (s : Feeder)
    (hc : s.pipeClosed = false) :
    ∃ a s2, step homeDir lstat a s = some s2 ∧
      movesLeft homeDir lstat s2 < movesLeft homeDir lstat s ∧
      s2.selectorGone = s.selectorGone := by
  obtain ⟨dirs, scans, pending, chanClosed, line, offered, pipe, pipeClosed, gone⟩ := s
  simp only at hc
  subst hc
  cases line with
  | cons c rest =>
    refine ⟨.writeByte, Feeder.mk dirs scans pending chanClosed rest offered
      (if gone then pipe else pipe ++ [c]) false gone, ?_, ?_, rfl⟩
    · simp [step]
    · simp [movesLeft]
  | nil =>
    cases dirs with
    | cons d rest =>
      refine ⟨.writeDir, Feeder.mk rest scans pending chanClosed
        (resolveTildePathIn homeDir d ++ [newline])
        (offered ++ (resolveTildePathIn homeDir d ++ [newline])) pipe false gone, ?_, ?_, rfl⟩
      · simp only [step, if_true, resolveTildePath_some, Option.map_some']
      · simp [movesLeft, lineCost]
    | nil =>
      cases pending with
      | cons r rest =>
        refine ⟨.transfer, Feeder.mk [] scans rest chanClosed (r ++ [newline])
          (offered ++ (r ++ [newline])) pipe false gone, ?_, ?_, rfl⟩
        · simp [step]
        · simp [movesLeft, lineCost]
      | nil =>
        cases scans with
        | cons sd rest =>
          refine ⟨.nextScan, Feeder.mk [] rest (scanSends homeDir lstat sd) chanClosed []
            offered pipe false gone, ?_, ?_, rfl⟩
          · simp only [step, if_true, resolveTildePath_some, Option.map_some', scanSends]
          · simp [movesLeft]
        | nil =>
          cases chanClosed with
          | false =>
            exact ⟨.closeChan, Feeder.mk [] [] [] true [] offered pipe false gone,
              by simp [step], by simp [movesLeft], rfl⟩
          | true =>
            exact ⟨.closePipe, Feeder.mk [] [] [] true [] offered pipe true gone,
              by simp [step], by simp [movesLeft], rfl⟩

/-- From every state the goroutines can run until the pipe is closed,
whatever the selector does. -/
theorem run_to_close (homeDir : Str) (lstat : Str → Option Node) (k : Nat) :
    ∀ s : Feeder, movesLeft homeDir lstat s ≤ k →
      ∃ acts s2, run homeDir lstat acts s = some s2 ∧ s2.pipeClosed = true ∧
        s2.selectorGone = s.selectorGone := by
  induction k with
  | zero =>
    intro s hk
    cases hc : s.pipeClosed with
    | true => exact ⟨[], s, rfl, hc, rfl⟩
    | false =>
      have : 0 < movesLeft homeDir lstat s := by
        simp [movesLeft, hc]
      omega
  | succ k ih =>
    intro s hk
    cases hc : s.pipeClosed with
    | true => exact ⟨[], s, rfl, hc, rfl⟩
    | false =>
      obtain ⟨a, s1, hs, hlt, hg⟩ := step_progress homeDir lstat s hc
      obtain ⟨acts, s2, hr, hc2, hg2⟩ := ih s1 (by omega)
      exact ⟨a :: acts, s2, by simp [run, hs, hr], hc2, hg2.trans hg⟩

/-- C7 as stated fails: the results of `pipe.Write` are discarded, so when
the selector exits after the static directory was written (the user picks it
before the scan has delivered), the feeder runs on and closes the pipe with
only the first of the two lines in it. -/
theorem early_selection_loses_lines :
    ¬ (∀ acts s,
        run "/home/u".toList scenarioLstat acts (Feeder.init overlapConfig) = some s →
        s.pipeClosed = true →
        s.pipe = lines (candidates "/home/u".toList scenarioLstat overlapConfig)) := by
  intro h
  have h1 := h earlyPick (closedState "/home/u/code/a\n".toList true) (by decide) rfl
  revert h1
  decide

/-- C7, amended: in every interleaving of the two goroutines and the
selector, the bytes that reach the selector are a beginning of the lines of
the candidates: the static directories, tilde-resolved, in configuration
order, then what `findRepos` emits for each scan entry, in configuration and
traversal order, each once, each followed by a newline, nothing removed.
When the feeder closes the pipe it has handed exactly these lines to
`pipe.Write`; all of them have reached the selector if it has not exited
before, and after the close no byte is written.  The goroutines can always
run until the pipe is closed, whatever the selector does.  When no candidate
holds a newline, the lines are the candidates, one on each line. -/
theorem feeder_offers_candidates (homeDir : Str) (lstat : Str → Option Node) (cfg : Config) :
    (∀ acts s, run homeDir lstat acts (Feeder.init cfg) = some s →
      (∃ rest, lines (candidates homeDir lstat cfg) = s.pipe ++ rest) ∧
      (s.pipeClosed = true →
        s.offered = lines (candidates homeDir lstat cfg) ∧
        (s.selectorGone = false → s.pipe = lines (candidates homeDir lstat cfg)) ∧
        ∀ a s2, step homeDir lstat a s = some s2 →
          s2.pipe = s.pipe ∧ s2.offered = s.offered)) ∧
    (∀ acts s, run homeDir lstat acts (Feeder.init cfg) = some s →
      ∃ acts2 s2, run homeDir lstat acts2 s = some s2 ∧ s2.pipeClosed = true ∧
        s2.selectorGone = s.selectorGone) ∧
    ((∀ c ∈ candidates homeDir lstat cfg, newline ∉ c) →
      splitLines (lines (candidates homeDir lstat cfg)) =
        candidates homeDir lstat cfg ++ [[]]) := by
  refine ⟨?_, ?_, splitLines_lines _⟩
  · intro acts s hr
    have hinv := feederInv_run homeDir lstat cfg acts _ s (feederInv_init homeDir lstat cfg) hr
    have hinv2 := hinv
    obtain ⟨h1, h2, h3, lost, h4, h5⟩ := hinv
    refine ⟨⟨lost ++ s.line ++ lines (linesLeft homeDir lstat s), ?_⟩, ?_⟩
    · rw [← h1, ← h4]
      simp
    · intro hc
      obtain ⟨hd, hcc, hl⟩ := h3 hc
      obtain ⟨hsc, hp⟩ := h2 hcc
      have hoff : s.offered = lines (candidates homeDir lstat cfg) := by
        rw [← h1]
        simp [linesLeft, hd, hsc, hp, lines]
      refine ⟨hoff, ?_, fun a s2 hs => step_closed homeDir lstat cfg a s s2 hinv2 hc hs⟩
      intro hg
      have hlost := h5 hg
      rw [← hoff, ← h4, hlost, hl]
      simp
  · intro acts s _
    exact run_to_close homeDir lstat _ s le_rfl

/-- C7, amended, for a configuration whose static directory is found again by
its scan, with a selector that keeps running: the path has reached the
selector twice, first as static directory, then as scanned repository, one on
each line. -/
theorem feeder_offers_candidates_witness :
    (closedState "/home/u/code/a\n/home/u/code/a\n".toList false).pipe =
      lines (candidates "/home/u".toList scenarioLstat overlapConfig) ∧
    splitLines (lines (candidates "/home/u".toList scenarioLstat overlapConfig)) =
      candidates "/home/u".toList scenarioLstat overlapConfig ++ [[]] :=
  ⟨(((feeder_offers_candidates "/home/u".toList scenarioLstat overlapConfig).1 fullFeed
      (closedState "/home/u/code/a\n/home/u/code/a\n".toList false) (by decide)).2 rfl).2.1 rfl,
   (feeder_offers_candidates "/home/u".toList scenarioLstat overlapConfig).2.2 (by decide)⟩

end TmuxSessionizer
